import Mathlib

/-!
Verification of the data pipeline of `render_tex.py` (resume-builder).

The Python source is shallowly embedded:
* strings are `List Char` (`Str`), and `str.replace` is `pyReplace`;
* `latex_escape` is `latexEscapeWith`, parameterised by the stream of
  placeholder tokens that the source draws from `uuid.uuid4()` — the
  default instantiation `latexEscape` uses a fixed stream of distinct
  well-formed tokens, and `latexEscapeWith_deterministic` proves the result
  does not depend on the chosen stream as long as the tokens are fresh;
* the YAML data tree is the inductive `Value`; `filter_for_target`,
  `escape_all` and the data stage of `create_tex` are `filterV`,
  `escapeAll` and `createTexData`.  Python's `TypeError` on
  `target not in show` for an unorderable `show_on` value is modelled by
  `Except Unit`.
-/

/-! ### Python strings and `str.replace` -/

/-- Characters of a Python string, in order. -/
abbrev Str := List Char

/-- Fuelled worker for `pyReplace`; the fuel only has to dominate the length
of the scanned string, so `pyReplace` passes `s.length`. -/
def pyReplaceAux : Nat → Str → Str → Str → Str
  | 0, _, _, s => s
  | _ + 1, _, _, [] => []
  | n + 1, pat, rep, c :: cs =>
    if pat ≠ [] ∧ pat.isPrefixOf (c :: cs) then
      rep ++ pyReplaceAux n pat rep ((c :: cs).drop pat.length)
    else
      c :: pyReplaceAux n pat rep cs

/-- Python `s.replace(pat, rep)`: replace the non-overlapping occurrences of
`pat`, scanning from the left.  (The source never calls `replace` with an
empty pattern; for `pat = []` this model returns `s` unchanged.) -/
def pyReplace (s pat rep : Str) : Str := pyReplaceAux s.length pat rep s

theorem pyReplaceAux_fuel {pat rep : Str} :
    ∀ (n m : Nat) (s : Str), s.length ≤ n → s.length ≤ m →
      pyReplaceAux n pat rep s = pyReplaceAux m pat rep s := by
  intro n
  induction n with
  | zero =>
    intro m s hn _
    have hs : s = [] := List.eq_nil_of_length_eq_zero (Nat.le_zero.mp hn)
    subst hs
    cases m <;> rfl
  | succ n ih =>
    intro m s hn hm
    match m, s with
    | 0, s =>
      have hs : s = [] := List.eq_nil_of_length_eq_zero (Nat.le_zero.mp hm)
      subst hs; cases n <;> rfl
    | m + 1, [] => rfl
    | m + 1, c :: cs =>
      simp only [pyReplaceAux]
      by_cases h : pat ≠ [] ∧ pat.isPrefixOf (c :: cs)
      · rw [if_pos h, if_pos h]
        have hp : 1 ≤ pat.length := List.length_pos.mpr h.1
        have hlen : ((c :: cs).drop pat.length).length ≤ cs.length := by
          simp only [List.length_drop, List.length_cons]
          omega
        refine congrArg _ (ih m _ ?_ ?_)
        · exact hlen.trans (Nat.le_of_succ_le_succ hn)
        · exact hlen.trans (Nat.le_of_succ_le_succ hm)
      · rw [if_neg h, if_neg h]
        exact congrArg _ (ih m cs (Nat.le_of_succ_le_succ hn) (Nat.le_of_succ_le_succ hm))

/-- Unfolding equation for `pyReplace` that is independent of the fuel. -/
theorem pyReplace_eq (pat rep : Str) :
    ∀ s : Str, pyReplace s pat rep =
      match s with
      | [] => []
      | c :: cs =>
        if pat ≠ [] ∧ pat.isPrefixOf (c :: cs) then
          rep ++ pyReplace ((c :: cs).drop pat.length) pat rep
        else
          c :: pyReplace cs pat rep := by
  intro s
  match s with
  | [] => rfl
  | c :: cs =>
    show pyReplaceAux (cs.length + 1) pat rep (c :: cs) = _
    simp only [pyReplaceAux]
    by_cases h : pat ≠ [] ∧ pat.isPrefixOf (c :: cs)
    · rw [if_pos h, if_pos h]
      refine congrArg _ (pyReplaceAux_fuel _ _ _ ?_ le_rfl)
      have hp : 1 ≤ pat.length := List.length_pos.mpr h.1
      simp only [List.length_drop, List.length_cons]
      omega
    · rw [if_neg h, if_neg h]
      rfl

theorem pyReplace_nil (pat rep : Str) : pyReplace [] pat rep = [] := rfl

/-! ### The escaper `latex_escape` (render_tex.py, lines 9-74)

Replacement tables transcribed from the source.  Every pattern in the three
tables is a one-character string, so patterns are modelled as `Char`.
Braces, backticks and quotes inside replacement strings are written with
`\xNN` escapes, and the typographic pattern characters (which are
non-ASCII punctuation) with `Char.ofNat` of their code points. -/

/-- Source lines 18-31: `unicode_math_replacements`. -/
def unicodeMathReplacements : List (Char × Str) :=
  [ ('≈', "$\\approx$".data),
    ('±', "$\\pm$".data),
    ('×', "$\\times$".data),
    ('÷', "$\\div$".data),
    ('≤', "$\\leq$".data),
    ('≥', "$\\geq$".data),
    ('≠', "$\\neq$".data),
    ('∞', "$\\infty$".data),
    ('∑', "$\\sum$".data),
    ('∏', "$\\prod$".data),
    ('√', "$\\sqrt\x7b\x7d$".data),
    ('°', "$^\\circ$".data) ]

/-- Source line 44 as Python parses it: the quote characters on source
lines 44-47 are plain ASCII, so the three double quotes on line 44 open a
triple-quoted string literal that only closes at the three double quotes
on line 45.  Its 40 characters — the rest of line 44, a newline, and the
indentation and parenthesis opening line 45 — become the pattern of the
third table entry. -/
def junkQuotePattern : Str :=
  (", r\"\x60\x60\"),  # left double quote\n        (").data

/-- Source lines 41-49: `typography_replacements` as Python parses them —
en-dash, em-dash, the accidental 40-character triple-quoted pattern mapped
to two apostrophes, the ASCII apostrophe mapped to a backtick, an identity
replacement of the apostrophe, and the ellipsis.  The intended curly-quote
characters never appear as patterns.  Patterns are strings, since the
third one is not a single character. -/
def typographyReplacements : List (Str × Str) :=
  [ ([Char.ofNat 0x2013], "--".data),
    ([Char.ofNat 0x2014], "---".data),
    (junkQuotePattern, "\x27\x27".data),
    ([Char.ofNat 39], "\x60".data),
    ([Char.ofNat 39], "\x27".data),
    ([Char.ofNat 0x2026], "...".data) ]

/-- The single-character entries of the typography table, in their order.
The fold of the full table equals the fold of these entries on any text in
which the junk pattern cannot occur (`strReplaceFold_typography`). -/
def typoSingles : List (Char × Str) :=
  [ (Char.ofNat 0x2013, "--".data),
    (Char.ofNat 0x2014, "---".data),
    (Char.ofNat 39, "\x60".data),
    (Char.ofNat 39, "\x27".data),
    (Char.ofNat 0x2026, "...".data) ]

/-- Source lines 55-66: `latex_special`, in the source's order — backslash
first. -/
def latexSpecial : List (Char × Str) :=
  [ ('\\', "\\textbackslash\x7b\x7d".data),
    ('&', "\\&".data),
    ('%', "\\%".data),
    ('$', "\\$".data),
    ('#', "\\#".data),
    ('_', "\\_".data),
    (Char.ofNat 0x7b, "\\\x7b".data),
    (Char.ofNat 0x7d, "\\\x7d".data),
    ('~', "\\textasciitilde\x7b\x7d".data),
    ('^', "\\textasciicircum\x7b\x7d".data) ]

/-- Source lines 33-38: the loop that moves present Unicode math symbols to
placeholder tokens.  `f` is the stream of tokens (the source builds token
number `k` as `"UNICODEMATH" + uuid4().hex`); `phs` is the `placeholders`
dict in insertion order and `k` counts the tokens drawn so far. -/
def step1Aux (f : Nat → Str) :
    List (Char × Str) → Str → List (Str × Str) → Nat → Str × List (Str × Str) × Nat
  | [], t, phs, k => (t, phs, k)
  | (c, code) :: rest, t, phs, k =>
    if c ∈ t then
      step1Aux f rest (pyReplace t [c] (f k)) (phs ++ [(f k, code)]) (k + 1)
    else
      step1Aux f rest t phs k

/-- Source lines 51-52: the typography loop runs `text.replace` for each
(pattern, replacement) pair of its table; patterns may be longer than one
character. -/
def strReplaceFold : List (Str × Str) → Str → Str
  | [], t => t
  | (p, r) :: rest, t => strReplaceFold rest (pyReplace t p r)

/-- Source lines 67-68: run a table of single-character replacements from
left to right over the text. -/
def charReplaceFold : List (Char × Str) → Str → Str
  | [], t => t
  | (c, r) :: rest, t => charReplaceFold rest (pyReplace t [c] r)

/-- Source lines 70-72: restore the placeholder tokens, in dict insertion
order. -/
def restoreFold : List (Str × Str) → Str → Str
  | [], t => t
  | (P, code) :: rest, t => restoreFold rest (pyReplace t P code)

/-- Source lines 9-74: `latex_escape`, parameterised by the placeholder
token stream `f`. -/
def latexEscapeWith (f : Nat → Str) (text : Str) : Str :=
  let s1 := step1Aux f unicodeMathReplacements text [] 0
  restoreFold s1.2.1 (charReplaceFold latexSpecial (strReplaceFold typographyReplacements s1.1))

/-- Representative placeholder stream: token `k` is the 43-character string
`"UNICODEMATH" ++ 31 zeros ++ one distinguishing letter`, mirroring the
shape (`"UNICODEMATH"` + 32 hex digits) and mutual distinctness that the
source obtains from `uuid4().hex`. -/
def defaultFresh (k : Nat) : Str :=
  'U' :: ("NICODEMATH".data ++ List.replicate 31 '0' ++
    [Char.ofNat (if k < 10 then 48 + k else 87 + k)])

/-- The escaper `latex_escape` at the representative placeholder stream. -/
def latexEscape (text : Str) : Str := latexEscapeWith defaultFresh text

/-- Pattern characters of the three replacement tables, and the table of
the ten typesetter-reserved characters (the patterns of `latex_special`). -/
def uniChars : List Char := unicodeMathReplacements.map (fun p => p.1)

def typoChars : List Char := typoSingles.map (fun p => p.1)

def reservedChars : List Char := latexSpecial.map (fun p => p.1)

/-- Characters that can follow the marker `U` in a placeholder token: the
rest of `"UNICODEMATH"` and the lowercase hex digits of `uuid4().hex`. -/
def tokTailCh (c : Char) : Bool := ("NICODEMATH0123456789abcdef".data).contains c

/-- A well-formed placeholder token: the marker `U` followed by 42 token
tail characters — the exact shape of `"UNICODEMATH" + uuid4().hex`. -/
def goodTok : Str → Bool
  | c :: tl => c == 'U' && tl.length == 42 && tl.all tokTailCh
  | [] => false

/-- Freshness of a placeholder stream: the first twelve tokens (at most
twelve are ever drawn) are well-formed and pairwise distinct. -/
def FreshTokens (f : Nat → Str) : Prop :=
  (∀ k < 12, goodTok (f k) = true) ∧
    (∀ j < 12, ∀ k < 12, j ≠ k → f j ≠ f k)

instance : DecidablePred FreshTokens := fun _ => by
  unfold FreshTokens; infer_instance

/-! ### Single-character replacement as a `flatMap` -/

/-- Replacing every occurrence of the single character `c` by `rep`. -/
def charRep (c : Char) (rep : Str) (s : Str) : Str :=
  s.flatMap (fun x => if x = c then rep else [x])

theorem pyReplace_single (c : Char) (rep : Str) :
    ∀ s : Str, pyReplace s [c] rep = charRep c rep s := by
  intro s
  induction s with
  | nil => rfl
  | cons x xs ih =>
    rw [pyReplace_eq]
    simp only [List.flatMap_cons, charRep] at *
    by_cases hx : x = c
    · subst hx
      have hpre : ([x] : Str) ≠ [] ∧ ([x] : Str).isPrefixOf (x :: xs) := by
        refine ⟨by simp, ?_⟩
        simp [List.isPrefixOf]
      rw [if_pos hpre]
      simp [ih, charRep]
    · have hpre : ¬(([c] : Str) ≠ [] ∧ ([c] : Str).isPrefixOf (x :: xs)) := by
        rintro ⟨-, hp⟩
        simp [List.isPrefixOf] at hp
        exact hx hp.symm
      rw [if_neg hpre]
      simp [ih, charRep, hx]

/-! ### The YAML data tree, `filter_for_target`, `escape_all`, `create_tex` -/

/-- A parsed YAML document: maps (insertion-ordered string keys), sequences
and scalars, as produced by `yaml.safe_load` for the documents this
pipeline consumes. -/
inductive Value where
  | null
  | bool (b : Bool)
  | int (n : Int)
  | str (s : Str)
  | list (xs : List Value)
  | map (kvs : List (Str × Value))

/-- The literal key `"show_on"`. -/
def showOnKey : Str := "show_on".data

/-- Python `obj.get(key)` on a dict (keys are unique in a dict, so the
first match is the match). -/
def lookupKey : List (Str × Value) → Str → Option Value
  | [], _ => none
  | (k, v) :: kvs, key => if k = key then some v else lookupKey kvs key

/-- Python truthiness of a YAML value, as used by `or []`, `or {}` and
`if target:` in the source. -/
def pythonTruthy : Value → Bool
  | .null => false
  | .bool b => b
  | .int n => n != 0
  | .str s => !s.isEmpty
  | .list xs => !xs.isEmpty
  | .map kvs => !kvs.isEmpty

/-- Source lines 114-117: `show = obj.get("show_on") or []` followed by the
single-string normalization `if isinstance(show, str): show = [show]`. -/
def normalizeShowOn (raw : Value) : Value :=
  match (if pythonTruthy raw then raw else .list []) with
  | .str s => .list [.str s]
  | v => v

/-- Source line 118: Python `target not in show`.  For a list, membership
compares `target` with each element (equal only to the equal string); for a
dict it tests the keys; for a string it is a substring test; any other
operand makes Python raise `TypeError`, modelled by `Except.error`. -/
def pyNotIn (t : Str) : Value → Except Unit Bool
  | .list vs => .ok (! vs.any (fun v => match v with | .str s => s = t | _ => false))
  | .map kvs => .ok (! kvs.any (fun kv => kv.1 = t))
  | .str s => .ok (! decide (t <:+: s))
  | _ => .error ()

mutual

/-- Source lines 105-136: `filter_for_target`.  `Except.error` is Python
raising `TypeError`; `Except.ok none` is the function returning `None`
(the node is dropped); `Except.ok (some v)` is the function returning the
kept, recursively filtered node.  A null leaf falls into the final
`return obj` (line 136) and so returns `None` itself — indistinguishable
from the dropped signal, hence `.ok none`. -/
def filterV (t : Str) : Value → Except Unit (Option Value)
  | .null => .ok none
  | .map kvs =>
    match lookupKey kvs showOnKey with
    | some raw =>
      match pyNotIn t (normalizeShowOn raw) with
      | .error e => .error e
      | .ok true => .ok none
      | .ok false =>
        match filterKVs t kvs with
        | .error e => .error e
        | .ok r => .ok (some (.map r))
    | none =>
      match filterKVs t kvs with
      | .error e => .error e
      | .ok r => .ok (some (.map r))
  | .list xs =>
    match filterList t xs with
    | .error e => .error e
    | .ok r => .ok (some (.list r))
  | v => .ok (some v)
termination_by structural v => v

/-- Source lines 128-134: the sequence branch of `filter_for_target`. -/
def filterList (t : Str) : List Value → Except Unit (List Value)
  | [] => .ok []
  | x :: xs =>
    match filterV t x with
    | .error e => .error e
    | .ok fx =>
      match filterList t xs with
      | .error e => .error e
      | .ok rest =>
        match fx with
        | none => .ok rest
        | some v => .ok (v :: rest)
termination_by structural xs => xs

/-- Source lines 120-127: the field loop of `filter_for_target`, which
skips the `show_on` key and drops children that filter to `None`. -/
def filterKVs (t : Str) : List (Str × Value) → Except Unit (List (Str × Value))
  | [] => .ok []
  | (k, v) :: kvs =>
    if k = showOnKey then filterKVs t kvs
    else
      match filterV t v with
      | .error e => .error e
      | .ok fv =>
        match filterKVs t kvs with
        | .error e => .error e
        | .ok rest =>
          match fv with
          | none => .ok rest
          | some w => .ok ((k, w) :: rest)
termination_by structural kvs => kvs

end

mutual

/-- Source lines 76-84: `escape_all` — apply the escaper to every string
scalar; dict keys and non-string scalars pass through unchanged.  Like the
escaper itself it is parameterised by the placeholder token stream. -/
def escapeAllWith (f : Nat → Str) : Value → Value
  | .null => .null
  | .bool b => .bool b
  | .int n => .int n
  | .str s => .str (latexEscapeWith f s)
  | .list xs => .list (escapeAllListWith f xs)
  | .map kvs => .map (escapeAllKVsWith f kvs)
termination_by structural v => v

def escapeAllListWith (f : Nat → Str) : List Value → List Value
  | [] => []
  | x :: xs => escapeAllWith f x :: escapeAllListWith f xs
termination_by structural xs => xs

def escapeAllKVsWith (f : Nat → Str) : List (Str × Value) → List (Str × Value)
  | [] => []
  | (k, v) :: kvs => (k, escapeAllWith f v) :: escapeAllKVsWith f kvs
termination_by structural kvs => kvs

end

/-- Instantiation of `escape_all` at the representative token stream. -/
def escapeAll : Value → Value := escapeAllWith defaultFresh

/-- Source lines 200-216: the data stage of `create_tex` — `data =
yaml.safe_load(yaml_content) or {}`, the optional filtering (`if target:`
is false for `None` and for the empty string), the `data_to_render or {}`
fallback, and `escape_all`.  The result is the tree of bindings handed to
the template; `Except.error` is `create_tex` raising `ValueError` because
filtering raised. -/
def createTexDataWith (f : Nat → Str) (parsed : Value) (target : Option Str) :
    Except Unit Value :=
  let data := if pythonTruthy parsed then parsed else .map []
  let runFiltering :=
    match target with
    | some t => !t.isEmpty
    | none => false
  let dtrE : Except Unit Value :=
    if runFiltering then
      match target with
      | some t =>
        match filterV t data with
        | .error e => .error e
        | .ok none => .ok .null
        | .ok (some v) => .ok v
      | none => .ok data
    else .ok data
  match dtrE with
  | .error e => .error e
  | .ok dtr => .ok (escapeAllWith f (if pythonTruthy dtr then dtr else .map []))

/-- Instantiation of the `create_tex` data stage at the representative
token stream. -/
def createTexData (parsed : Value) (target : Option Str) : Except Unit Value :=
  createTexDataWith defaultFresh parsed target

theorem filterKVs_lookup_showOn (t : Str) :
    ∀ (kvs kvs' : List (Str × Value)), filterKVs t kvs = .ok kvs' →
      lookupKey kvs' showOnKey = none := by
  intro kvs
  induction kvs with
  | nil =>
    intro kvs' h
    simp only [filterKVs] at h
    cases h
    rfl
  | cons kv kvs ih =>
    intro kvs' h
    obtain ⟨k, v⟩ := kv
    simp only [filterKVs] at h
    split at h
    · exact ih kvs' h
    · next hk =>
      split at h
      · cases h
      · split at h
        · cases h
        · split at h
          · cases h
            exact ih _ (by assumption)
          · cases h
            simp only [lookupKey, if_neg hk]
            exact ih _ (by assumption)

mutual

theorem filterV_fix (t : Str) (v : Value) :
    ∀ w, filterV t v = .ok (some w) → filterV t w = .ok (some w) := by
  match v with
  | .null => intro w h; exact Option.noConfusion (Except.ok.inj h)
  | .bool b => intro w h; cases h; rfl
  | .int n => intro w h; cases h; rfl
  | .str s => intro w h; cases h; rfl
  | .list xs =>
    intro w h
    simp only [filterV] at h
    split at h
    · cases h
    · next ys hl =>
      cases h
      have hys := filterList_fix t xs ys hl
      simp only [filterV, hys]
  | .map kvs =>
    intro w h
    simp only [filterV] at h
    split at h
    · next raw hlk =>
      split at h
      · cases h
      · cases h
      · next hni =>
        split at h
        · cases h
        · next r hkv =>
          cases h
          have hr := filterKVs_fix t kvs r hkv
          have hno := filterKVs_lookup_showOn t kvs r hkv
          simp only [filterV, hno, hr]
    · next hlk =>
      split at h
      · cases h
      · next r hkv =>
        cases h
        have hr := filterKVs_fix t kvs r hkv
        have hno := filterKVs_lookup_showOn t kvs r hkv
        simp only [filterV, hno, hr]
termination_by structural v

theorem filterList_fix (t : Str) (xs : List Value) :
    ∀ ys, filterList t xs = .ok ys → filterList t ys = .ok ys := by
  match xs with
  | [] => intro ys h; cases h; rfl
  | x :: xs =>
    intro ys h
    simp only [filterList] at h
    split at h
    · cases h
    · next fx hfx =>
      split at h
      · cases h
      · next rest hrest =>
        split at h
        · cases h
          exact filterList_fix t xs _ hrest
        · next v =>
          cases h
          have hv := filterV_fix t x v hfx
          have hr := filterList_fix t xs _ hrest
          simp only [filterList, hv, hr]
termination_by structural xs

theorem filterKVs_fix (t : Str) (kvs : List (Str × Value)) :
    ∀ kvs', filterKVs t kvs = .ok kvs' → filterKVs t kvs' = .ok kvs' := by
  match kvs with
  | [] => intro kvs' h; cases h; rfl
  | (k, v) :: kvs =>
    intro kvs' h
    simp only [filterKVs] at h
    split at h
    · exact filterKVs_fix t kvs kvs' h
    · next hk =>
      split at h
      · cases h
      · next fv hfv =>
        split at h
        · cases h
        · next rest hrest =>
          split at h
          · cases h
            exact filterKVs_fix t kvs _ hrest
          · next w2 =>
            cases h
            have hw := filterV_fix t v w2 hfv
            have hr := filterKVs_fix t kvs _ hrest
            simp only [filterKVs, if_neg hk, hw, hr]
termination_by structural kvs

end

/-- The element predicate of the list branch of `pyNotIn` holds exactly for
the string equal to the target. -/
theorem pyNotIn_elem_iff (t : Str) (v : Value) :
    ((match v with | .str s => decide (s = t) | _ => false) = true) ↔ v = Value.str t := by
  cases v <;> simp

/-- List membership decides the list branch of `pyNotIn`. -/
theorem pyNotIn_list_true (t : Str) (vs : List Value) (h : Value.str t ∉ vs) :
    pyNotIn t (.list vs) = .ok true := by
  have hany : vs.any (fun v => match v with | .str s => decide (s = t) | _ => false) = false := by
    rw [List.any_eq_false]
    intro v hv hp
    exact h ((pyNotIn_elem_iff t v).mp hp ▸ hv)
  simp only [pyNotIn, hany]
  rfl

theorem pyNotIn_list_false (t : Str) (vs : List Value) (h : Value.str t ∈ vs) :
    pyNotIn t (.list vs) = .ok false := by
  have hany : vs.any (fun v => match v with | .str s => decide (s = t) | _ => false) = true :=
    List.any_eq_true.mpr ⟨_, h, (pyNotIn_elem_iff t _).mpr rfl⟩
  simp only [pyNotIn, hany]
  rfl

/-- A kept map node filters to a map node. -/
theorem filterV_map_shape (t : Str) (kvs : List (Str × Value)) (w : Value)
    (h : filterV t (.map kvs) = .ok (some w)) : ∃ m, w = Value.map m := by
  simp only [filterV] at h
  split at h
  · split at h
    · cases h
    · cases h
    · split at h
      · cases h
      · cases h; exact ⟨_, rfl⟩
  · split at h
    · cases h
    · cases h; exact ⟨_, rfl⟩

/-- C3: a map node with a `show_on` field is dropped exactly when the
target is not among the normalized tag list, and a kept node loses the
`show_on` key; a node with no `show_on` is never dropped. -/
theorem c3_show_on_filtering :
    (filterV "cv".data (.map [(showOnKey, .list [.str "resume".data])]) = .ok none) ∧
    (filterV "resume".data (.map [(showOnKey, .list [.str "resume".data])]) =
      .ok (some (.map []))) ∧
    (∀ (kvs : List (Str × Value)) (t : Str) (raw : Value) (tags : List Value),
      lookupKey kvs showOnKey = some raw →
      normalizeShowOn raw = .list tags →
      ((Value.str t ∉ tags → filterV t (.map kvs) = .ok none) ∧
       (Value.str t ∈ tags → ∀ r, filterV t (.map kvs) = .ok r →
          ∃ kvs', r = some (.map kvs') ∧ lookupKey kvs' showOnKey = none))) ∧
    (∀ (kvs : List (Str × Value)) (t : Str),
      lookupKey kvs showOnKey = none →
      ∀ r, filterV t (.map kvs) = .ok r → ∃ kvs', r = some (.map kvs')) := by
  refine ⟨rfl, rfl, ?_, ?_⟩
  · intro kvs t raw tags hlk hnorm
    constructor
    · intro hmem
      simp only [filterV]
      split
      · next raw2 hlk2 =>
        rw [hlk] at hlk2
        cases hlk2
        rw [hnorm, pyNotIn_list_true t tags hmem]
      · next hlk2 => rw [hlk] at hlk2; cases hlk2
    · intro hmem r h
      simp only [filterV] at h
      split at h
      · next raw2 hlk2 =>
        rw [hlk] at hlk2
        cases hlk2
        have hfalse : pyNotIn t (normalizeShowOn raw) = .ok false := by
          rw [hnorm]
          exact pyNotIn_list_false t tags hmem
        split at h
        · next heq2 => rw [hfalse] at heq2; cases heq2
        · next heq2 => rw [hfalse] at heq2; cases heq2
        · split at h
          · cases h
          · next kvs2 hkv =>
            cases h
            exact ⟨kvs2, rfl, filterKVs_lookup_showOn t kvs kvs2 hkv⟩
      · next hlk2 => rw [hlk] at hlk2; cases hlk2
  · intro kvs t hlk r h
    simp only [filterV] at h
    split at h
    · next raw2 hlk2 => rw [hlk] at hlk2; cases hlk2
    · split at h
      · cases h
      · next kvs2 hkv => cases h; exact ⟨kvs2, rfl⟩

theorem c3_show_on_filtering_witness :
    filterV "cv".data (.map [("a".data, .int 1), (showOnKey, .list [.str "resume".data])]) =
      .ok none := by
  refine (c3_show_on_filtering.2.2.1
    [("a".data, .int 1), (showOnKey, .list [.str "resume".data])]
    "cv".data (.list [.str "resume".data]) [.str "resume".data] rfl rfl).1 ?_
  intro hm
  exact absurd (Value.str.inj (List.mem_singleton.mp hm)) (by decide)

/-- Elementwise description of the sequence branch. -/
theorem filterList_forall2 (t : Str) :
    ∀ (xs : List Value) (oys : List (Option Value)),
      List.Forall₂ (fun x oy => filterV t x = .ok oy) xs oys →
      filterList t xs = .ok oys.reduceOption := by
  intro xs oys h
  induction h with
  | nil => rfl
  | cons h1 h2 ih =>
    next x oy xs2 oys2 =>
      simp only [filterList, h1, ih]
      cases oy <;> simp [List.reduceOption]

/-- C4 (counterexample): the null scalar does NOT pass through — the
filter returns Python `None` for a null leaf, which every caller reads as
the dropped signal, so a null sequence element vanishes and a null map
value loses its key. -/
theorem c4_null_conflated_cex :
    filterV "cv".data .null = .ok none ∧
    filterV "cv".data .null ≠ .ok (some .null) ∧
    filterV "cv".data (.list [.null]) = .ok (some (.list [])) ∧
    filterV "cv".data (.map [("k".data, .null)]) = .ok (some (.map [])) := by
  refine ⟨rfl, fun h => Option.noConfusion (Except.ok.inj h), rfl, rfl⟩

/-- C4 (amended): text, number and boolean scalars filter to themselves,
but a null leaf returns the dropped signal (`None` is returned verbatim
and conflated with the drop marker); sequences filter elementwise in
order, are never absent, and become the empty (present) sequence when all
elements drop. -/
theorem c4_scalars_and_sequences :
    (∀ t : Str, filterV t .null = .ok none ∧
      (∀ b, filterV t (.bool b) = .ok (some (.bool b))) ∧
      (∀ n, filterV t (.int n) = .ok (some (.int n))) ∧
      (∀ s, filterV t (.str s) = .ok (some (.str s)))) ∧
    (∀ (t : Str) (xs : List Value) (r : Option Value),
      filterV t (.list xs) = .ok r → ∃ ys, r = some (.list ys)) ∧
    (∀ (t : Str) (xs : List Value) (oys : List (Option Value)),
      List.Forall₂ (fun x oy => filterV t x = .ok oy) xs oys →
      filterV t (.list xs) = .ok (some (.list oys.reduceOption))) ∧
    (∀ (t : Str) (xs : List Value),
      (∀ x ∈ xs, filterV t x = .ok none) →
      filterV t (.list xs) = .ok (some (.list []))) := by
  refine ⟨fun t => ⟨rfl, fun b => rfl, fun n => rfl, fun s => rfl⟩, ?_, ?_, ?_⟩
  · intro t xs r h
    simp only [filterV] at h
    split at h
    · cases h
    · next ys hl => cases h; exact ⟨ys, rfl⟩
  · intro t xs oys h
    simp only [filterV, filterList_forall2 t xs oys h]
  · intro t xs h
    have h2 : List.Forall₂ (fun x oy => filterV t x = .ok oy) xs (xs.map fun _ => none) := by
      induction xs with
      | nil => exact List.Forall₂.nil
      | cons x xs ih =>
        exact List.Forall₂.cons (h x (List.mem_cons_self x xs))
          (ih fun y hy => h y (List.mem_cons_of_mem x hy))
    have h3 := filterList_forall2 t xs _ h2
    have h4 : (xs.map fun _ => (none : Option Value)).reduceOption = [] := by
      induction xs with
      | nil => rfl
      | cons x xs ih => simp [List.reduceOption, ih]
    rw [h4] at h3
    simp only [filterV, h3]

theorem c4_scalars_and_sequences_witness :
    filterV "cv".data (.list [.int 7, .map [(showOnKey, .bool false)], .null]) =
      .ok (some (.list [.int 7])) :=
  c4_scalars_and_sequences.2.2.1 "cv".data [.int 7, .map [(showOnKey, .bool false)], .null]
    [some (.int 7), none, none]
    (List.Forall₂.cons rfl (List.Forall₂.cons rfl (List.Forall₂.cons rfl List.Forall₂.nil)))

/-- C10: a falsy `show_on` value (None, empty list, empty string, False,
zero) normalizes to the empty tag list, so the node is dropped for every
target. -/
theorem c10_falsy_show_on_dropped (kvs : List (Str × Value)) (t : Str) (raw : Value)
    (hlk : lookupKey kvs showOnKey = some raw) (hfalsy : pythonTruthy raw = false) :
    filterV t (.map kvs) = .ok none := by
  have hnorm : normalizeShowOn raw = .list [] := by
    simp [normalizeShowOn, hfalsy]
  simp only [filterV]
  split
  · next raw2 hlk2 =>
    rw [hlk] at hlk2
    cases hlk2
    rw [hnorm]
    rfl
  · next hlk2 => rw [hlk] at hlk2; cases hlk2

theorem c10_falsy_show_on_dropped_witness :
    filterV "cv".data (.map [("x".data, .int 1), (showOnKey, .list [])]) = .ok none :=
  c10_falsy_show_on_dropped [("x".data, .int 1), (showOnKey, .list [])] "cv".data
    (.list []) rfl rfl

/-- C6: the filter is idempotent on kept results — filtering a filtered
value returns it unchanged. -/
theorem c6_filter_idempotent (d : Value) (t : Str) (v : Value)
    (h : filterV t d = .ok (some v)) : filterV t v = .ok (some v) :=
  filterV_fix t d v h

theorem c6_filter_idempotent_witness :
    filterV "cv".data (.map [("a".data, .int 2)]) =
      .ok (some (.map [("a".data, .int 2)])) :=
  c6_filter_idempotent (.map [("a".data, .int 2), (showOnKey, .str "cv".data)])
    "cv".data (.map [("a".data, .int 2)]) rfl

/-- C5: with a map root, the data handed to the template is always a
(present) map: a root dropped by the filter, or filtered to nothing, is
replaced by the empty map by the `or` fallbacks of `create_tex`. -/
theorem c5_root_never_dropped (kvs : List (Str × Value)) (t : Str) (r : Option Value)
    (ht : t ≠ []) (h : filterV t (.map kvs) = .ok r) :
    ∃ kvs', createTexData (.map kvs) (some t) = .ok (.map kvs') := by
  have hte : t.isEmpty = false := by
    cases t with
    | nil => exact absurd rfl ht
    | cons c cs => rfl
  by_cases hke : kvs = []
  · subst hke
    refine ⟨[], ?_⟩
    simp only [createTexData, createTexDataWith, pythonTruthy, hte]
    rfl
  · have hkt : pythonTruthy (.map kvs) = true := by
      simp only [pythonTruthy, Bool.not_eq_true']
      rw [List.isEmpty_eq_false]  -- kvs.isEmpty = false ↔ kvs ≠ []
      exact hke
    simp only [createTexData, createTexDataWith, hkt, hte, if_true]
    simp only [Bool.not_false, if_true, h]
    cases r with
    | none => exact ⟨[], rfl⟩
    | some v =>
      obtain ⟨m, rfl⟩ := filterV_map_shape t kvs v h
      by_cases hme : m = []
      · subst hme; exact ⟨[], rfl⟩
      · have hmt : pythonTruthy (.map m) = true := by
          simp only [pythonTruthy, Bool.not_eq_true']
          rw [List.isEmpty_eq_false]
          exact hme
        refine ⟨escapeAllKVsWith defaultFresh m, ?_⟩
        simp only [hmt, if_true]
        rfl

theorem c5_root_never_dropped_witness :
    ∃ kvs', createTexData (.map [(showOnKey, .list [.str "resume".data])]) (some "cv".data) =
      .ok (.map kvs') :=
  c5_root_never_dropped [(showOnKey, .list [.str "resume".data])] "cv".data none
    (by decide) rfl

/-- C1 (code bug): escaping the string `a\b`.  The backslash is replaced
first, by `\textbackslash{}`, and no later substitution re-escapes the
backslashes this introduces; but the braces that the substitution
introduces ARE re-escaped by the later brace substitutions, so the result
is `a\textbackslash\{\}b` instead of the intended `a\textbackslash{}b`. -/
theorem c1_backslash_braces_reescaped :
    latexEscape ['a', '\\', 'b'] = "a\\textbackslash\\\x7b\\\x7db".data ∧
    latexEscape ['a', '\\', 'b'] ≠ "a\\textbackslash\x7b\x7db".data := by
  constructor
  · decide
  · decide

/-- C2 (counterexample): the escaper is not idempotent — escaping `\&`
(the escape of `&`) escapes the backslash and ampersand again. -/
theorem c2_escape_not_idempotent_cex :
    latexEscape (latexEscape ['&']) ≠ latexEscape ['&'] := by decide

/-- C9: each preserved Unicode math symbol round-trips through the escaper
to exactly its typesetter substitution; the substitution's own backslash
and dollar characters are not escaped by the reserved-character step. -/
theorem c9_unicode_roundtrip :
    latexEscape ['≈'] = "$\\approx$".data ∧
    latexEscape ['±'] = "$\\pm$".data ∧
    latexEscape ['×'] = "$\\times$".data ∧
    latexEscape ['÷'] = "$\\div$".data ∧
    latexEscape ['≤'] = "$\\leq$".data ∧
    latexEscape ['≥'] = "$\\geq$".data ∧
    latexEscape ['≠'] = "$\\neq$".data ∧
    latexEscape ['∞'] = "$\\infty$".data ∧
    latexEscape ['∑'] = "$\\sum$".data ∧
    latexEscape ['∏'] = "$\\prod$".data ∧
    latexEscape ['√'] = "$\\sqrt\x7b\x7d$".data ∧
    latexEscape ['°'] = "$^\\circ$".data := by
  refine ⟨?_, ?_, ?_, ?_, ?_, ?_, ?_, ?_, ?_, ?_, ?_, ?_⟩ <;> decide

/-! ### Character-level and token-level replacement calculus

To reason about the placeholder scheme of `latex_escape`, strings that may
contain placeholder tokens are represented as lists of abstract tokens: an
ordinary character, or placeholder number `k` standing for the `k`-th
token drawn from the stream, remembering the substitution it protects.
`flattenI f` maps a token list back to the concrete string determined by
the stream `f`. -/

theorem charRep_cons (c : Char) (rep : Str) (x : Char) (s : Str) :
    charRep c rep (x :: s) = (if x = c then rep else [x]) ++ charRep c rep s := by
  simp [charRep]

theorem charRep_append (c : Char) (rep : Str) (s1 s2 : Str) :
    charRep c rep (s1 ++ s2) = charRep c rep s1 ++ charRep c rep s2 := by
  simp [charRep]

theorem charRep_not_mem (c : Char) (rep : Str) (s : Str) (h : c ∉ s) :
    charRep c rep s = s := by
  induction s with
  | nil => rfl
  | cons x xs ih =>
    rw [charRep_cons]
    have hx : x ≠ c := fun he => h (he ▸ List.mem_cons_self x xs)
    rw [if_neg hx, ih (fun hm => h (List.mem_cons_of_mem x hm))]
    rfl

inductive TokI where
  | ch (c : Char)
  | ph (k : Nat) (code : Str)
  deriving DecidableEq

/-- Concrete string denoted by a token list, for the token stream `f`. -/
def flattenI (f : Nat → Str) : List TokI → Str
  | [] => []
  | .ch c :: ts => c :: flattenI f ts
  | .ph k _ :: ts => f k ++ flattenI f ts

theorem flattenI_append (f : Nat → Str) (ts1 ts2 : List TokI) :
    flattenI f (ts1 ++ ts2) = flattenI f ts1 ++ flattenI f ts2 := by
  induction ts1 with
  | nil => rfl
  | cons t ts ih => cases t <;> simp [flattenI, ih]

theorem flattenI_map_ch (f : Nat → Str) (w : Str) :
    flattenI f (w.map TokI.ch) = w := by
  induction w with
  | nil => rfl
  | cons c cs ih => simp [flattenI, ih]

/-- Substitute the ordinary character `c` by the token list `out`. -/
def chSub (c : Char) (out : List TokI) : TokI → List TokI
  | .ch x => if x = c then out else [.ch x]
  | .ph k code => [.ph k code]

/-- Substitute placeholder number `k0` by the plain string `rep`. -/
def phSub (k0 : Nat) (rep : Str) : TokI → List TokI
  | .ch x => [.ch x]
  | .ph k code => if k = k0 then rep.map .ch else [.ph k code]

/-- Ordinary characters appearing in a token list. -/
def OkChs (ts : List TokI) : Prop := ∀ c : Char, TokI.ch c ∈ ts → c ≠ 'U'

/-- All placeholder numbers of a token list are below 12. -/
def PhIdxLt (ts : List TokI) : Prop := ∀ (k : Nat) (code : Str), TokI.ph k code ∈ ts → k < 12

/-- Structure of a well-formed token. -/
theorem goodTok_iff (P : Str) :
    goodTok P = true ↔
      ∃ tl, P = 'U' :: tl ∧ tl.length = 42 ∧ ∀ c ∈ tl, tokTailCh c = true := by
  cases P with
  | nil => simp [goodTok]
  | cons c tl =>
    simp only [goodTok, Bool.and_eq_true, beq_iff_eq, List.all_eq_true]
    constructor
    · rintro ⟨⟨hc, hlen⟩, hall⟩
      subst hc
      exact ⟨tl, rfl, by exact_mod_cast hlen, hall⟩
    · rintro ⟨tl2, heq, hlen, hall⟩
      cases heq
      exact ⟨⟨rfl, by exact_mod_cast hlen⟩, hall⟩

/-- Token tail characters are never the marker. -/
theorem tokTailCh_ne_U (c : Char) (h : tokTailCh c = true) : c ≠ 'U' := by
  intro he
  subst he
  exact absurd h (by decide)

theorem goodTok_length (P : Str) (h : goodTok P = true) : P.length = 43 := by
  obtain ⟨tl, rfl, hlen, -⟩ := (goodTok_iff P).mp h
  simp [hlen]

/-- A character outside the marker and the tail alphabet does not occur in
a well-formed token. -/
theorem goodTok_not_mem (P : Str) (c : Char) (hP : goodTok P = true)
    (hcU : c ≠ 'U') (hci : tokTailCh c = false) : c ∉ P := by
  obtain ⟨tl, rfl, -, hall⟩ := (goodTok_iff P).mp hP
  intro hm
  rcases List.mem_cons.mp hm with h | h
  · exact hcU h
  · exact absurd (hall c h) (by rw [hci]; exact Bool.false_ne_true)

/-- Step of the scan when the pattern matches at the head. -/
theorem pyReplace_cons_pos (pat rep : Str) (c : Char) (cs : Str)
    (h : pat ≠ [] ∧ pat.isPrefixOf (c :: cs)) :
    pyReplace (c :: cs) pat rep = rep ++ pyReplace ((c :: cs).drop pat.length) pat rep := by
  rw [pyReplace_eq]
  show (if pat ≠ [] ∧ pat.isPrefixOf (c :: cs) then
      rep ++ pyReplace ((c :: cs).drop pat.length) pat rep
    else c :: pyReplace cs pat rep) = _
  rw [if_pos h]

/-- Step of the scan when the pattern does not match at the head. -/
theorem pyReplace_cons_neg (pat rep : Str) (c : Char) (cs : Str)
    (h : ¬(pat ≠ [] ∧ pat.isPrefixOf (c :: cs))) :
    pyReplace (c :: cs) pat rep = c :: pyReplace cs pat rep := by
  rw [pyReplace_eq]
  show (if pat ≠ [] ∧ pat.isPrefixOf (c :: cs) then
      rep ++ pyReplace ((c :: cs).drop pat.length) pat rep
    else c :: pyReplace cs pat rep) = _
  rw [if_neg h]

/-- A character that occurs in no placeholder token occurs in the flattened
string exactly when it occurs as an ordinary token. -/
theorem mem_flattenI (f : Nat → Str) (c : Char) :
    ∀ ts : List TokI, (∀ k code, TokI.ph k code ∈ ts → c ∉ f k) →
      (c ∈ flattenI f ts ↔ TokI.ch c ∈ ts) := by
  intro ts hph
  induction ts with
  | nil => simp [flattenI]
  | cons t ts ih =>
    have ih2 := ih (fun k code hk => hph k code (List.mem_cons_of_mem t hk))
    cases t with
    | ch x =>
      simp only [flattenI, List.mem_cons]
      rw [ih2]
      constructor
      · rintro (h | h)
        · exact Or.inl (h ▸ rfl)
        · exact Or.inr h
      · rintro (h | h)
        · exact Or.inl (TokI.ch.inj h)
        · exact Or.inr h
    | ph k code =>
      simp only [flattenI, List.mem_append, List.mem_cons]
      rw [ih2]
      constructor
      · rintro (h | h)
        · exact absurd h (hph k code (List.mem_cons_self _ _))
        · exact Or.inr h
      · rintro (h | h)
        · cases h
        · exact Or.inr h

/-- Single-character replacement on the flattened string is substitution on
the token list, provided the character occurs in no placeholder token and
the replacement for the ordinary character flattens correctly. -/
theorem charRep_flattenI (f : Nat → Str) (c : Char) (rep : Str) (out : List TokI)
    (hout : flattenI f out = rep) :
    ∀ ts : List TokI, (∀ k code, TokI.ph k code ∈ ts → c ∉ f k) →
      charRep c rep (flattenI f ts) = flattenI f (ts.flatMap (chSub c out)) := by
  intro ts hph
  induction ts with
  | nil => rfl
  | cons t ts ih =>
    have ih2 := ih (fun k code hk => hph k code (List.mem_cons_of_mem t hk))
    cases t with
    | ch x =>
      simp only [flattenI, List.flatMap_cons, flattenI_append]
      rw [charRep_cons, ih2]
      congr 1
      by_cases hx : x = c
      · rw [if_pos hx, show chSub c out (.ch x) = out by simp [chSub, hx]]
        exact hout.symm
      · rw [if_neg hx, show chSub c out (.ch x) = [.ch x] by simp [chSub, hx]]
        rfl
    | ph k code =>
      simp only [flattenI, List.flatMap_cons, flattenI_append]
      rw [charRep_append, ih2, charRep_not_mem c rep (f k) (hph k code (List.mem_cons_self _ _))]
      rfl

/-- The scan of `pyReplace` for a pattern starting with `U` passes over a
`U`-free chunk unchanged. -/
theorem pyReplace_skip (tl0 rep : Str) :
    ∀ (w rest : Str), (∀ x ∈ w, x ≠ 'U') →
      pyReplace (w ++ rest) ('U' :: tl0) rep = w ++ pyReplace rest ('U' :: tl0) rep := by
  intro w
  induction w with
  | nil => intro rest _; rfl
  | cons x xs ih =>
    intro rest hw
    have hx : x ≠ 'U' := hw x (List.mem_cons_self _ _)
    have hnp : ¬(('U' :: tl0 : Str) ≠ [] ∧ ('U' :: tl0 : Str).isPrefixOf (x :: (xs ++ rest))) := by
      rintro ⟨-, hp⟩
      simp only [List.isPrefixOf, Bool.and_eq_true, beq_iff_eq] at hp
      exact hx hp.1.symm
    rw [List.cons_append, pyReplace_cons_neg _ _ _ _ hnp]
    exact congrArg _ (ih rest (fun y hy => hw y (List.mem_cons_of_mem x hy)))

/-- Replacing the `k0`-th placeholder token in the flattened string is the
token-level substitution `phSub k0`: occurrences of the token are exactly
the `k0` placeholder positions, because ordinary characters avoid the
marker `U`, all tokens are 43 characters long, start with `U` and are
pairwise distinct. -/
theorem pyReplace_ph_flattenI (f : Nat → Str) (hf : FreshTokens f) (k0 : Nat)
    (hk0 : k0 < 12) (rep : Str) :
    ∀ ts : List TokI, OkChs ts → PhIdxLt ts →
      pyReplace (flattenI f ts) (f k0) rep = flattenI f (ts.flatMap (phSub k0 rep)) := by
  obtain ⟨tl0, hg0, hlen0, hall0⟩ := (goodTok_iff (f k0)).mp (hf.1 k0 hk0)
  intro ts
  induction ts with
  | nil => intro _ _; rfl
  | cons t ts ih =>
    intro hok hidx
    have hok2 : OkChs ts := fun c hc => hok c (List.mem_cons_of_mem t hc)
    have hidx2 : PhIdxLt ts := fun k code hk => hidx k code (List.mem_cons_of_mem t hk)
    have ih2 := ih hok2 hidx2
    cases t with
    | ch x =>
      have hx : x ≠ 'U' := hok x (List.mem_cons_self _ _)
      have hnp : ¬((f k0) ≠ [] ∧ (f k0).isPrefixOf (x :: flattenI f ts)) := by
        rintro ⟨-, hp⟩
        rw [hg0] at hp
        simp only [List.isPrefixOf, Bool.and_eq_true, beq_iff_eq] at hp
        exact hx hp.1.symm
      show pyReplace (x :: flattenI f ts) (f k0) rep = _
      rw [pyReplace_cons_neg _ _ _ _ hnp, ih2]
      rfl
    | ph j code =>
      have hj : j < 12 := hidx j code (List.mem_cons_self _ _)
      obtain ⟨tlj, hgj, hlenj, hallj⟩ := (goodTok_iff (f j)).mp (hf.1 j hj)
      have hlenfj : (f j).length = 43 := by rw [hgj]; simp [hlenj]
      have hlenfk : (f k0).length = 43 := by rw [hg0]; simp [hlen0]
      show pyReplace (f j ++ flattenI f ts) (f k0) rep = _
      by_cases hjk : j = k0
      · subst hjk
        have hpre : (f j).isPrefixOf (f j ++ flattenI f ts) = true :=
          List.isPrefixOf_iff_prefix.mpr (List.prefix_append _ _)
        have hne : (f j) ≠ [] := by rw [hgj]; exact List.cons_ne_nil _ _
        rw [hgj, List.cons_append,
          pyReplace_cons_pos _ _ _ _ ⟨by rw [← hgj]; exact hne, by rw [← hgj, ← List.cons_append, ← hgj]; exact hpre⟩]
        rw [← List.cons_append, ← hgj]
        have hdrop : List.drop (f j).length (f j ++ flattenI f ts) = flattenI f ts :=
          List.drop_left _ _
        rw [hdrop, ih2]
        simp only [List.flatMap_cons, flattenI_append]
        rw [show phSub j rep (.ph j code) = rep.map .ch by simp [phSub]]
        rw [flattenI_map_ch]
      · have hnp : ¬((f k0) ≠ [] ∧ (f k0).isPrefixOf ('U' :: (tlj ++ flattenI f ts))) := by
          rintro ⟨-, hp⟩
          have hp2 : (f k0) <+: (f j ++ flattenI f ts) := by
            rw [hgj, List.cons_append]
            exact List.isPrefixOf_iff_prefix.mp hp
          have htake := List.prefix_iff_eq_take.mp hp2
          rw [hlenfk, ← hlenfj, List.take_left] at htake
          exact absurd htake (hf.2 k0 hk0 j hj (fun he => hjk he.symm))
        rw [hgj, List.cons_append, pyReplace_cons_neg _ _ _ _ hnp]
        have hskip := pyReplace_skip tl0 rep tlj (flattenI f ts)
          (fun y hy => tokTailCh_ne_U y (hallj y hy))
        rw [← hg0] at hskip
        rw [hskip, ih2]
        simp only [List.flatMap_cons, flattenI_append]
        rw [show phSub k0 rep (.ph j code) = [.ph j code] by simp [phSub, hjk]]
        show 'U' :: (tlj ++ flattenI f (ts.flatMap (phSub k0 rep))) = _
        rw [← List.cons_append, ← hgj]
        simp [flattenI]

/-- Token-level version of `step1Aux`: placeholders are recorded by number,
not by their concrete `uuid` text, so this computation is independent of
the token stream. -/
def step1AuxI : List (Char × Str) → List TokI → List (Nat × Str) → Nat →
    List TokI × List (Nat × Str) × Nat
  | [], ts, phs, k => (ts, phs, k)
  | (c, code) :: rest, ts, phs, k =>
    if TokI.ch c ∈ ts then
      step1AuxI rest (ts.flatMap (chSub c [.ph k code])) (phs ++ [(k, code)]) (k + 1)
    else step1AuxI rest ts phs k

/-- Token-level version of `charReplaceFold`. -/
def chFold : List (Char × Str) → List TokI → List TokI
  | [], ts => ts
  | (c, r) :: rest, ts => chFold rest (ts.flatMap (chSub c (r.map .ch)))

/-- Token-level version of `restoreFold`. -/
def restoreFoldI : List (Nat × Str) → List TokI → List TokI
  | [], ts => ts
  | (k, code) :: rest, ts => restoreFoldI rest (ts.flatMap (phSub k code))

theorem flattenI_ph_singleton (f : Nat → Str) (k : Nat) (code : Str) :
    flattenI f [TokI.ph k code] = f k := by
  simp [flattenI]

/-- Placeholder tokens survive an ordinary-character substitution whose
output contains no placeholder tokens. -/
theorem ph_mem_flatMap_chSub (c : Char) (r : Str) (ts : List TokI) (k : Nat) (code : Str) :
    TokI.ph k code ∈ ts.flatMap (chSub c (r.map .ch)) ↔ TokI.ph k code ∈ ts := by
  rw [List.mem_flatMap]
  constructor
  · rintro ⟨tok, htok, hin⟩
    cases tok with
    | ch x =>
      simp only [chSub] at hin
      split at hin
      · rcases List.mem_map.mp hin with ⟨d, -, hd⟩
        cases hd
      · rcases List.mem_singleton.mp hin with h
        cases h
    | ph k2 code2 =>
      simp only [chSub] at hin
      rcases List.mem_singleton.mp hin with h
      cases h
      exact htok
  · intro h
    exact ⟨TokI.ph k code, h, by simp [chSub]⟩

/-- Ordinary characters after an ordinary-character substitution come from
the original list or from the replacement. -/
theorem ch_mem_flatMap_chSub (c : Char) (r : Str) (ts : List TokI) (d : Char)
    (h : TokI.ch d ∈ ts.flatMap (chSub c (r.map .ch))) :
    TokI.ch d ∈ ts ∨ d ∈ r := by
  rcases List.mem_flatMap.mp h with ⟨tok, htok, hin⟩
  cases tok with
  | ch x =>
    simp only [chSub] at hin
    split at hin
    · rcases List.mem_map.mp hin with ⟨e, he, hd⟩
      cases hd
      exact Or.inr he
    · rcases List.mem_singleton.mp hin with h2
      cases h2
      exact Or.inl htok
  | ph k2 code2 =>
    simp only [chSub] at hin
    rcases List.mem_singleton.mp hin with h2
    cases h2

/-- Correspondence of the typography/special folds: on strings that flatten
a token list, a table of single-character replacements acts tokenwise,
provided no pattern character can occur inside a placeholder token. -/
theorem charReplaceFold_flattenI (f : Nat → Str) (hf : FreshTokens f) :
    ∀ (L : List (Char × Str)) (ts : List TokI), PhIdxLt ts →
      (∀ p ∈ L, p.1 ≠ 'U' ∧ tokTailCh p.1 = false) →
      charReplaceFold L (flattenI f ts) = flattenI f (chFold L ts) := by
  intro L
  induction L with
  | nil => intro ts _ _; rfl
  | cons p L ih =>
    intro ts hidx hL
    obtain ⟨c, r⟩ := p
    have hc := hL (c, r) (List.mem_cons_self _ _)
    have hph : ∀ k code, TokI.ph k code ∈ ts → c ∉ f k := fun k code hk =>
      goodTok_not_mem (f k) c (hf.1 k (hidx k code hk)) hc.1 hc.2
    show charReplaceFold L (pyReplace (flattenI f ts) [c] r) = _
    rw [pyReplace_single, charRep_flattenI f c r (r.map .ch) (flattenI_map_ch f r) ts hph]
    refine ih _ ?_ (fun q hq => hL q (List.mem_cons_of_mem _ hq))
    intro k code hk
    exact hidx k code ((ph_mem_flatMap_chSub c r ts k code).mp hk)

/-- Ordinary characters stay away from the marker `U` through a fold whose
replacement strings avoid `U`. -/
theorem chFold_OkChs :
    ∀ (L : List (Char × Str)) (ts : List TokI), OkChs ts →
      (∀ p ∈ L, ∀ d ∈ p.2, d ≠ 'U') → OkChs (chFold L ts) := by
  intro L
  induction L with
  | nil => intro ts h _; exact h
  | cons p L ih =>
    intro ts hok hL
    obtain ⟨c, r⟩ := p
    refine ih _ ?_ (fun q hq => hL q (List.mem_cons_of_mem _ hq))
    intro d hd
    rcases ch_mem_flatMap_chSub c r ts d hd with h | h
    · exact hok d h
    · exact hL (c, r) (List.mem_cons_self _ _) d h

/-- Placeholder tokens are untouched by the typography/special folds. -/
theorem chFold_ph_mem :
    ∀ (L : List (Char × Str)) (ts : List TokI) (k : Nat) (code : Str),
      (TokI.ph k code ∈ chFold L ts ↔ TokI.ph k code ∈ ts) := by
  intro L
  induction L with
  | nil => intro ts k code; exact Iff.rfl
  | cons p L ih =>
    intro ts k code
    obtain ⟨c, r⟩ := p
    rw [show chFold ((c, r) :: L) ts = chFold L (ts.flatMap (chSub c (r.map .ch))) from rfl,
      ih, ph_mem_flatMap_chSub]

/-- Correspondence of the restore fold. -/
theorem restoreFold_flattenI (f : Nat → Str) (hf : FreshTokens f) :
    ∀ (phsI : List (Nat × Str)) (ts : List TokI), OkChs ts → PhIdxLt ts →
      (∀ p ∈ phsI, p.1 < 12 ∧ ∀ d ∈ p.2, d ≠ 'U') →
      restoreFold (phsI.map (fun p => (f p.1, p.2))) (flattenI f ts) =
        flattenI f (restoreFoldI phsI ts) := by
  intro phsI
  induction phsI with
  | nil => intro ts _ _ _; rfl
  | cons p phsI ih =>
    intro ts hok hidx hP
    obtain ⟨k, code⟩ := p
    have hk := (hP (k, code) (List.mem_cons_self _ _)).1
    have hcode := (hP (k, code) (List.mem_cons_self _ _)).2
    show restoreFold _ (pyReplace (flattenI f ts) (f k) code) = _
    rw [pyReplace_ph_flattenI f hf k hk code ts hok hidx]
    refine ih _ ?_ ?_ (fun q hq => hP q (List.mem_cons_of_mem _ hq))
    · intro d hd
      rcases List.mem_flatMap.mp hd with ⟨tok, htok, hin⟩
      cases tok with
      | ch x =>
        rcases List.mem_singleton.mp hin with h2
        cases h2
        exact hok _ htok
      | ph k2 code2 =>
        simp only [phSub] at hin
        split at hin
        · rcases List.mem_map.mp hin with ⟨e, he, hd2⟩
          cases hd2
          exact hcode _ he
        · rcases List.mem_singleton.mp hin with h2
          cases h2
    · intro k2 code2 hk2
      rcases List.mem_flatMap.mp hk2 with ⟨tok, htok, hin⟩
      cases tok with
      | ch x =>
        rcases List.mem_singleton.mp hin with h2
        cases h2
      | ph k3 code3 =>
        simp only [phSub] at hin
        split at hin
        · rcases List.mem_map.mp hin with ⟨e, he, hd2⟩
          cases hd2
        · rcases List.mem_singleton.mp hin with h2
          cases h2
          exact hidx _ _ htok

theorem flatMap_map_comp {α β γ : Type} (g : α → β) (h : β → List γ) :
    ∀ s : List α, (s.map g).flatMap h = s.flatMap (fun x => h (g x)) := by
  intro s
  induction s with
  | nil => rfl
  | cons x xs ih => simp [ih]

theorem flatMap_eq_map_of_singleton {α β : Type} (h : α → List β) (g2 : α → β) :
    ∀ s : List α, (∀ x ∈ s, h x = [g2 x]) → s.flatMap h = s.map g2 := by
  intro s
  induction s with
  | nil => intro _; rfl
  | cons x xs ih =>
    intro hx
    simp only [List.flatMap_cons, List.map_cons, hx x (List.mem_cons_self _ _)]
    rw [ih (fun y hy => hx y (List.mem_cons_of_mem x hy))]
    rfl

/-- Correspondence of the placeholder-introduction loop: on a flattened
token list it acts tokenwise and the placeholder dict it builds is the
instantiation of an index-level dict. -/
theorem step1Aux_flattenI (f : Nat → Str) (hf : FreshTokens f) :
    ∀ (entries : List (Char × Str)) (ts : List TokI) (phsI : List (Nat × Str)) (k : Nat),
      PhIdxLt ts → k + entries.length ≤ 12 →
      (∀ p ∈ entries, p.1 ≠ 'U' ∧ tokTailCh p.1 = false) →
      step1Aux f entries (flattenI f ts) (phsI.map (fun p => (f p.1, p.2))) k =
        (flattenI f (step1AuxI entries ts phsI k).1,
         (step1AuxI entries ts phsI k).2.1.map (fun p => (f p.1, p.2)),
         (step1AuxI entries ts phsI k).2.2) := by
  intro entries
  induction entries with
  | nil => intro ts phsI k _ _ _; rfl
  | cons p rest ih =>
    intro ts phsI k hidx hbound hent
    obtain ⟨c, code⟩ := p
    have hc := hent (c, code) (List.mem_cons_self _ _)
    have hph : ∀ k2 code2, TokI.ph k2 code2 ∈ ts → c ∉ f k2 := fun k2 code2 hk =>
      goodTok_not_mem (f k2) c (hf.1 k2 (hidx k2 code2 hk)) hc.1 hc.2
    have hmem := mem_flattenI f c ts hph
    simp only [step1Aux, step1AuxI]
    by_cases hcm : TokI.ch c ∈ ts
    · rw [if_pos (hmem.mpr hcm), if_pos hcm]
      have hidx2 : PhIdxLt (ts.flatMap (chSub c [.ph k code])) := by
        intro k2 code2 hk2
        rcases List.mem_flatMap.mp hk2 with ⟨tok, htok, hin⟩
        cases tok with
        | ch x =>
          simp only [chSub] at hin
          split at hin
          · rcases List.mem_singleton.mp hin with h2
            cases h2
            simp only [List.length_cons] at hbound
            omega
          · rcases List.mem_singleton.mp hin with h2
            cases h2
        | ph k3 code3 =>
          simp only [chSub] at hin
          rcases List.mem_singleton.mp hin with h2
          cases h2
          exact hidx _ _ htok
      have hbound2 : (k + 1) + rest.length ≤ 12 := by
        simp only [List.length_cons] at hbound
        omega
      have hrw : pyReplace (flattenI f ts) [c] (f k) =
          flattenI f (ts.flatMap (chSub c [.ph k code])) := by
        rw [pyReplace_single]
        exact charRep_flattenI f c (f k) [.ph k code] (flattenI_ph_singleton f k code) ts hph
      rw [hrw, show (phsI.map fun p => (f p.1, p.2)) ++ [(f k, code)] =
        (phsI ++ [(k, code)]).map (fun p => (f p.1, p.2)) by simp]
      exact ih _ _ _ hidx2 hbound2 (fun q hq => hent q (List.mem_cons_of_mem _ hq))
    · rw [if_neg (fun h => hcm (hmem.mp h)), if_neg hcm]
      refine ih _ _ _ hidx ?_ (fun q hq => hent q (List.mem_cons_of_mem _ hq))
      simp only [List.length_cons] at hbound
      omega

/-- Structure of the placeholder-introduction loop: the token list stays a
character-wise image of the input string, each character being either
itself or a placeholder paired in the dict with its Unicode substitution;
dict indices are consecutive. -/
theorem step1AuxI_spec :
    ∀ (entries : List (Char × Str)) (s : Str) (g : Char → TokI)
      (phsI : List (Nat × Str)) (k : Nat),
      (∀ c, g c = TokI.ch c ∨ ∃ k2 code, g c = TokI.ph k2 code ∧ (k2, code) ∈ phsI ∧
        (c, code) ∈ unicodeMathReplacements) →
      phsI.map Prod.fst = List.range k →
      (∀ p ∈ phsI, ∃ c2, (c2, p.2) ∈ unicodeMathReplacements) →
      entries ⊆ unicodeMathReplacements →
      ∃ g' phsI' k',
        step1AuxI entries (s.map g) phsI k = (s.map g', phsI', k') ∧
        (∀ c, g' c = TokI.ch c ∨ ∃ k2 code, g' c = TokI.ph k2 code ∧ (k2, code) ∈ phsI' ∧
          (c, code) ∈ unicodeMathReplacements) ∧
        phsI'.map Prod.fst = List.range k' ∧
        (∀ p ∈ phsI', ∃ c2, (c2, p.2) ∈ unicodeMathReplacements) ∧
        k' ≤ k + entries.length := by
  intro entries
  induction entries with
  | nil =>
    intro s g phsI k hg hrange hcodes _
    exact ⟨g, phsI, k, rfl, hg, hrange, hcodes, Nat.le_refl k⟩
  | cons p rest ih =>
    intro s g phsI k hg hrange hcodes hsub
    obtain ⟨c, code⟩ := p
    simp only [step1AuxI]
    by_cases hcm : TokI.ch c ∈ s.map g
    · rw [if_pos hcm]
      have hgc : g c = TokI.ch c := by
        rcases List.mem_map.mp hcm with ⟨c2, hc2, hgc2⟩
        rcases hg c2 with h | ⟨k2, code2, hph, -, -⟩
        · rw [h] at hgc2
          cases hgc2
          exact h
        · rw [hph] at hgc2
          cases hgc2
      have hmap : (s.map g).flatMap (chSub c [.ph k code]) =
          s.map (fun x => if x = c then TokI.ph k code else g x) := by
        rw [flatMap_map_comp]
        refine flatMap_eq_map_of_singleton _ _ s (fun x _ => ?_)
        by_cases hx : x = c
        · subst hx
          rw [hgc]
          simp [chSub]
        · rcases hg x with h | ⟨k2, code2, hph, -, -⟩
          · rw [h]
            simp [chSub, hx]
          · rw [hph]
            simp [chSub, hx]
      rw [hmap]
      have hgnew : ∀ c2, (fun x => if x = c then TokI.ph k code else g x) c2 = TokI.ch c2 ∨
          ∃ k2 code2, (fun x => if x = c then TokI.ph k code else g x) c2 = TokI.ph k2 code2 ∧
            (k2, code2) ∈ phsI ++ [(k, code)] ∧ (c2, code2) ∈ unicodeMathReplacements := by
        intro c2
        by_cases hx : c2 = c
        · subst hx
          refine Or.inr ⟨k, code, by simp, by simp, hsub (List.mem_cons_self _ _)⟩
        · simp only [if_neg hx]
          rcases hg c2 with h | ⟨k2, code2, hph, hmem2, huni⟩
          · exact Or.inl h
          · exact Or.inr ⟨k2, code2, hph, List.mem_append_left _ hmem2, huni⟩
      have hrange2 : (phsI ++ [(k, code)]).map Prod.fst = List.range (k + 1) := by
        rw [List.map_append, hrange, List.range_succ]
        rfl
      have hcodes2 : ∀ p ∈ phsI ++ [(k, code)], ∃ c2, (c2, p.2) ∈ unicodeMathReplacements := by
        intro q hq
        rcases List.mem_append.mp hq with h | h
        · exact hcodes q h
        · rcases List.mem_singleton.mp h with h2
          subst h2
          exact ⟨c, hsub (List.mem_cons_self _ _)⟩
      obtain ⟨g', phsI', k', heq, hg', hrange', hcodes', hk'⟩ :=
        ih s _ (phsI ++ [(k, code)]) (k + 1) hgnew hrange2 hcodes2
          (fun q hq => hsub (List.mem_cons_of_mem _ hq))
      refine ⟨g', phsI', k', heq, hg', hrange', hcodes', ?_⟩
      simp only [List.length_cons]
      omega
    · rw [if_neg hcm]
      obtain ⟨g', phsI', k', heq, hg', hrange', hcodes', hk'⟩ :=
        ih s g phsI k hg hrange hcodes (fun q hq => hsub (List.mem_cons_of_mem _ hq))
      refine ⟨g', phsI', k', heq, hg', hrange', hcodes', ?_⟩
      simp only [List.length_cons]
      omega

/-- Replacing a pattern that does not occur is the identity. -/
theorem pyReplace_no_occur (s pat rep : Str) (hne : pat ≠ []) (h : ¬ pat <:+: s) :
    pyReplace s pat rep = s := by
  induction s with
  | nil => rfl
  | cons c cs ih =>
    have hnp : ¬(pat ≠ [] ∧ pat.isPrefixOf (c :: cs)) := by
      rintro ⟨-, hp⟩
      exact h (List.IsPrefix.isInfix (List.isPrefixOf_iff_prefix.mp hp))
    rw [pyReplace_cons_neg _ _ _ _ hnp]
    refine congrArg _ (ih ?_)
    intro hinf
    exact h (hinf.trans (List.suffix_cons c cs).isInfix)

/-- Characters after a single-character replacement come from the original
string or from the replacement. -/
theorem mem_of_mem_charRep (c : Char) (r s : Str) (d : Char) (h : d ∈ charRep c r s) :
    d ∈ s ∨ d ∈ r := by
  rcases List.mem_flatMap.mp h with ⟨x, hx, hin⟩
  by_cases hxc : x = c
  · rw [if_pos hxc] at hin
    exact Or.inr hin
  · rw [if_neg hxc] at hin
    rcases List.mem_singleton.mp hin with h2
    subst h2
    exact Or.inl hx

/-- The junk pattern contains both a newline and a hash mark, so on text
free of either character (the dash substitutions introduce only hyphens)
its replacement is a no-op, and the typography fold reduces to the fold of
its single-character entries. -/
theorem strReplaceFold_typography (text : Str)
    (h : Char.ofNat 10 ∉ text ∨ '#' ∉ text) :
    strReplaceFold typographyReplacements text = charReplaceFold typoSingles text := by
  have hw : ∃ w, w ∈ junkQuotePattern ∧
      w ∉ pyReplace (pyReplace text [Char.ofNat 0x2013] "--".data)
        [Char.ofNat 0x2014] "---".data := by
    rcases h with h | h
    · refine ⟨Char.ofNat 10, by decide, ?_⟩
      rw [pyReplace_single, pyReplace_single]
      intro hmem
      rcases mem_of_mem_charRep _ _ _ _ hmem with h2 | h2
      · rcases mem_of_mem_charRep _ _ _ _ h2 with h3 | h3
        · exact h h3
        · exact absurd h3 (by decide)
      · exact absurd h2 (by decide)
    · refine ⟨'#', by decide, ?_⟩
      rw [pyReplace_single, pyReplace_single]
      intro hmem
      rcases mem_of_mem_charRep _ _ _ _ hmem with h2 | h2
      · rcases mem_of_mem_charRep _ _ _ _ h2 with h3 | h3
        · exact h h3
        · exact absurd h3 (by decide)
      · exact absurd h2 (by decide)
  obtain ⟨w, hwj, hwt⟩ := hw
  have hnojunk : ¬ junkQuotePattern <:+:
      pyReplace (pyReplace text [Char.ofNat 0x2013] "--".data)
        [Char.ofNat 0x2014] "---".data :=
    fun hinf => hwt (hinf.subset hwj)
  simp only [typographyReplacements, typoSingles, strReplaceFold, charReplaceFold]
  rw [pyReplace_no_occur _ _ _ (by decide) hnojunk]

/-- The whole escaper at the token level.  This computation never mentions
the token stream: it is the specification that `latex_escape` implements
for any fresh stream. -/
def pipelineI (s : Str) : List TokI :=
  let r := step1AuxI unicodeMathReplacements (s.map .ch) [] 0
  restoreFoldI r.2.1 (chFold latexSpecial (chFold typoSingles r.1))

/-- Main correspondence: for a fresh token stream and an input that avoids
the marker letter of the tokens, `latex_escape` computes the flattening of
the stream-independent token pipeline. -/
theorem latexEscapeWith_eq_pipelineI (f : Nat → Str) (s : Str)
    (hf : FreshTokens f) (hs : 'U' ∉ s) (hnl : Char.ofNat 10 ∉ s) :
    latexEscapeWith f s = flattenI f (pipelineI s) := by
  obtain ⟨g', phsI', k', heq, hg', hrange', hcodes', hk'⟩ :=
    step1AuxI_spec unicodeMathReplacements s TokI.ch [] 0
      (fun c => Or.inl rfl) rfl (by simp) (fun q hq => hq)
  have hk12 : k' ≤ 12 := le_trans hk' (by decide)
  have hphmem : ∀ k2 code, TokI.ph k2 code ∈ s.map g' → (k2, code) ∈ phsI' := by
    intro k2 code hk2
    rcases List.mem_map.mp hk2 with ⟨c, -, hgc⟩
    rcases hg' c with h | ⟨k3, code3, hph, hmem3, -⟩
    · rw [h] at hgc; cases hgc
    · rw [hph] at hgc
      cases hgc
      exact hmem3
  have hidx1 : PhIdxLt (s.map g') := by
    intro k2 code hk2
    have hm := hphmem k2 code hk2
    have : k2 ∈ phsI'.map Prod.fst := List.mem_map.mpr ⟨(k2, code), hm, rfl⟩
    rw [hrange'] at this
    exact lt_of_lt_of_le (List.mem_range.mp this) hk12
  have hok1 : OkChs (s.map g') := by
    intro d hd
    rcases List.mem_map.mp hd with ⟨c, hc, hgc⟩
    rcases hg' c with h | ⟨k3, code3, hph, -, -⟩
    · rw [h] at hgc
      cases hgc
      exact fun he => hs (he ▸ hc)
    · rw [hph] at hgc; cases hgc
  have htypo : ∀ p ∈ typoSingles, p.1 ≠ 'U' ∧ tokTailCh p.1 = false := by decide
  have hspec : ∀ p ∈ latexSpecial, p.1 ≠ 'U' ∧ tokTailCh p.1 = false := by decide
  have htypoU : ∀ p ∈ typoSingles, ∀ d ∈ p.2, d ≠ 'U' := by decide
  have hspecU : ∀ p ∈ latexSpecial, ∀ d ∈ p.2, d ≠ 'U' := by decide
  have huniU : ∀ q ∈ unicodeMathReplacements, ∀ d ∈ q.2, d ≠ 'U' := by decide
  have hidx2 : PhIdxLt (chFold typoSingles (s.map g')) := by
    intro k2 code hk2
    exact hidx1 k2 code ((chFold_ph_mem _ _ _ _).mp hk2)
  have hidx3 : PhIdxLt (chFold latexSpecial (chFold typoSingles (s.map g'))) := by
    intro k2 code hk2
    exact hidx2 k2 code ((chFold_ph_mem _ _ _ _).mp hk2)
  have hok3 : OkChs (chFold latexSpecial (chFold typoSingles (s.map g'))) :=
    chFold_OkChs _ _ (chFold_OkChs _ _ hok1 htypoU) hspecU
  have hP : ∀ p ∈ phsI', p.1 < 12 ∧ ∀ d ∈ p.2, d ≠ 'U' := by
    intro p hp
    constructor
    · have : p.1 ∈ phsI'.map Prod.fst := List.mem_map.mpr ⟨p, hp, rfl⟩
      rw [hrange'] at this
      exact lt_of_lt_of_le (List.mem_range.mp this) hk12
    · obtain ⟨c2, hc2⟩ := hcodes' p hp
      exact huniU _ hc2
  show restoreFold (step1Aux f unicodeMathReplacements s [] 0).2.1
      (charReplaceFold latexSpecial (strReplaceFold typographyReplacements
        (step1Aux f unicodeMathReplacements s [] 0).1)) = _
  have hstart : step1Aux f unicodeMathReplacements s [] 0 =
      (flattenI f (s.map g'), phsI'.map (fun p => (f p.1, p.2)), k') := by
    have h0 := step1Aux_flattenI f hf unicodeMathReplacements (s.map TokI.ch) [] 0
      (by intro k code hk; rcases List.mem_map.mp hk with ⟨c, -, hc⟩; cases hc)
      (by decide) (by decide)
    rw [flattenI_map_ch] at h0
    rw [show (([] : List (Nat × Str)).map (fun p => (f p.1, p.2))) = [] from rfl] at h0
    rw [h0, heq]
  rw [hstart]
  show restoreFold (phsI'.map fun p => (f p.1, p.2))
      (charReplaceFold latexSpecial (strReplaceFold typographyReplacements
        (flattenI f (s.map g')))) = _
  have hph_nl : ∀ k2 code2, TokI.ph k2 code2 ∈ s.map g' → Char.ofNat 10 ∉ f k2 :=
    fun k2 code2 hk => goodTok_not_mem (f k2) _ (hf.1 k2 (hidx1 k2 code2 hk))
      (by decide) (by decide)
  have hnlf : Char.ofNat 10 ∉ flattenI f (s.map g') := by
    intro hmem
    have hch := (mem_flattenI f _ _ hph_nl).mp hmem
    rcases List.mem_map.mp hch with ⟨c, hc, hgc⟩
    rcases hg' c with h | ⟨k3, code3, hph, -, -⟩
    · rw [h] at hgc
      cases hgc
      exact hnl hc
    · rw [hph] at hgc
      cases hgc
  rw [strReplaceFold_typography _ (Or.inl hnlf)]
  rw [charReplaceFold_flattenI f hf typoSingles _ hidx1 htypo,
    charReplaceFold_flattenI f hf latexSpecial _ hidx2 hspec,
    restoreFold_flattenI f hf phsI' _ hok3 hidx3 hP]
  show _ = flattenI f (pipelineI s)
  unfold pipelineI
  rw [heq]

/-- After the restore fold, a placeholder whose pair was recorded in the
dict cannot remain. -/
theorem restoreFoldI_no_ph :
    ∀ (phsI : List (Nat × Str)) (ts : List TokI),
      (∀ k code, TokI.ph k code ∈ ts → (k, code) ∈ phsI) →
      ∀ k code, TokI.ph k code ∉ restoreFoldI phsI ts := by
  intro phsI
  induction phsI with
  | nil =>
    intro ts h k code hk
    exact absurd (h k code hk) (List.not_mem_nil _)
  | cons p rest ih =>
    intro ts h k code
    obtain ⟨k0, c0⟩ := p
    refine ih _ ?_ k code
    intro k2 code2 hk2
    rcases List.mem_flatMap.mp hk2 with ⟨tok, htok, hin⟩
    cases tok with
    | ch x =>
      rcases List.mem_singleton.mp hin with h2
      cases h2
    | ph k3 code3 =>
      simp only [phSub] at hin
      split at hin
      · rcases List.mem_map.mp hin with ⟨e, -, h2⟩
        cases h2
      · next hne =>
        rcases List.mem_singleton.mp hin with h2
        cases h2
        rcases List.mem_cons.mp (h k2 code2 htok) with h3 | h3
        · cases h3
          exact absurd rfl hne
        · exact h3

/-- The token pipeline leaves no placeholder tokens. -/
theorem pipelineI_no_ph (s : Str) :
    ∀ k code, TokI.ph k code ∉ pipelineI s := by
  obtain ⟨g', phsI', k', heq, hg', hrange', hcodes', hk'⟩ :=
    step1AuxI_spec unicodeMathReplacements s TokI.ch [] 0
      (fun c => Or.inl rfl) rfl (by simp) (fun q hq => hq)
  unfold pipelineI
  rw [heq]
  refine restoreFoldI_no_ph phsI' _ ?_
  intro k code hk
  have hk2 := (chFold_ph_mem _ _ _ _).mp ((chFold_ph_mem _ _ _ _).mp hk)
  rcases List.mem_map.mp hk2 with ⟨c, -, hgc⟩
  rcases hg' c with h | ⟨k3, code3, hph, hmem3, -⟩
  · rw [h] at hgc; cases hgc
  · rw [hph] at hgc
    cases hgc
    exact hmem3

/-- Token lists without placeholders flatten independently of the stream. -/
theorem flattenI_congr (f1 f2 : Nat → Str) :
    ∀ ts : List TokI, (∀ k code, TokI.ph k code ∉ ts) →
      flattenI f1 ts = flattenI f2 ts := by
  intro ts
  induction ts with
  | nil => intro _; rfl
  | cons t ts ih =>
    intro h
    cases t with
    | ch c =>
      simp only [flattenI]
      rw [ih (fun k code hk => h k code (List.mem_cons_of_mem _ hk))]
    | ph k code => exact absurd (List.mem_cons_self _ _) (h k code)

/-- Determinism of the escaper: any two fresh token streams produce the
same escaped text on marker-free input. -/
theorem latexEscapeWith_deterministic (f1 f2 : Nat → Str) (s : Str)
    (h1 : FreshTokens f1) (h2 : FreshTokens f2) (hs : 'U' ∉ s)
    (hnl : Char.ofNat 10 ∉ s) :
    latexEscapeWith f1 s = latexEscapeWith f2 s := by
  rw [latexEscapeWith_eq_pipelineI f1 s h1 hs hnl, latexEscapeWith_eq_pipelineI f2 s h2 hs hnl]
  exact flattenI_congr f1 f2 _ (pipelineI_no_ph s)

mutual

/-- String scalars of a document (dict keys are not string scalars). -/
def strsOfV : Value → List Str
  | .null => []
  | .bool _ => []
  | .int _ => []
  | .str s => [s]
  | .list xs => strsOfList xs
  | .map kvs => strsOfKVs kvs
termination_by structural v => v

def strsOfList : List Value → List Str
  | [] => []
  | x :: xs => strsOfV x ++ strsOfList xs
termination_by structural xs => xs

def strsOfKVs : List (Str × Value) → List Str
  | [] => []
  | (_, v) :: kvs => strsOfV v ++ strsOfKVs kvs
termination_by structural kvs => kvs

end

mutual

/-- Filtering only removes subtrees: string scalars of the result are
string scalars of the input. -/
theorem filterV_strs (t : Str) (v : Value) :
    ∀ w, filterV t v = .ok (some w) → ∀ s ∈ strsOfV w, s ∈ strsOfV v := by
  match v with
  | .null => intro w h; exact Option.noConfusion (Except.ok.inj h)
  | .bool b => intro w h; cases h; exact fun s hs => hs
  | .int n => intro w h; cases h; exact fun s hs => hs
  | .str s0 => intro w h; cases h; exact fun s hs => hs
  | .list xs =>
    intro w h
    simp only [filterV] at h
    split at h
    · cases h
    · next ys hl =>
      cases h
      intro s hs
      exact filterList_strs t xs ys hl s hs
  | .map kvs =>
    intro w h
    simp only [filterV] at h
    split at h
    · split at h
      · cases h
      · cases h
      · split at h
        · cases h
        · next r hkv =>
          cases h
          intro s hs
          exact filterKVs_strs t kvs r hkv s hs
    · split at h
      · cases h
      · next r hkv =>
        cases h
        intro s hs
        exact filterKVs_strs t kvs r hkv s hs
termination_by structural v

theorem filterList_strs (t : Str) (xs : List Value) :
    ∀ ys, filterList t xs = .ok ys → ∀ s ∈ strsOfList ys, s ∈ strsOfList xs := by
  match xs with
  | [] => intro ys h; cases h; exact fun s hs => hs
  | x :: xs =>
    intro ys h
    simp only [filterList] at h
    split at h
    · cases h
    · next fx hfx =>
      split at h
      · cases h
      · next rest hrest =>
        split at h
        · cases h
          intro s hs
          exact List.mem_append_right _ (filterList_strs t xs _ hrest s hs)
        · next v2 =>
          cases h
          intro s hs
          rcases List.mem_append.mp hs with h2 | h2
          · exact List.mem_append_left _ (filterV_strs t x v2 hfx s h2)
          · exact List.mem_append_right _ (filterList_strs t xs _ hrest s h2)
termination_by structural xs

theorem filterKVs_strs (t : Str) (kvs : List (Str × Value)) :
    ∀ kvs2, filterKVs t kvs = .ok kvs2 → ∀ s ∈ strsOfKVs kvs2, s ∈ strsOfKVs kvs := by
  match kvs with
  | [] => intro kvs2 h; cases h; exact fun s hs => hs
  | (k, v) :: kvs =>
    intro kvs2 h
    simp only [filterKVs] at h
    split at h
    · intro s hs
      exact List.mem_append_right _ (filterKVs_strs t kvs kvs2 h s hs)
    · next hk =>
      split at h
      · cases h
      · next fv hfv =>
        split at h
        · cases h
        · next rest hrest =>
          split at h
          · cases h
            intro s hs
            exact List.mem_append_right _ (filterKVs_strs t kvs _ hrest s hs)
          · next w2 =>
            cases h
            intro s hs
            rcases List.mem_append.mp hs with h2 | h2
            · exact List.mem_append_left _ (filterV_strs t v w2 hfv s h2)
            · exact List.mem_append_right _ (filterKVs_strs t kvs _ hrest s h2)
termination_by structural kvs

end

mutual

/-- The recursive escape is determined by the escapes of the string
scalars. -/
theorem escapeAllWith_congr (f1 f2 : Nat → Str) (v : Value) :
    (∀ s ∈ strsOfV v, latexEscapeWith f1 s = latexEscapeWith f2 s) →
    escapeAllWith f1 v = escapeAllWith f2 v := by
  match v with
  | .null => intro _; rfl
  | .bool b => intro _; rfl
  | .int n => intro _; rfl
  | .str s0 =>
    intro h
    simp only [escapeAllWith]
    rw [h s0 (List.mem_singleton.mpr rfl)]
  | .list xs =>
    intro h
    simp only [escapeAllWith]
    rw [escapeAllListWith_congr f1 f2 xs h]
  | .map kvs =>
    intro h
    simp only [escapeAllWith]
    rw [escapeAllKVsWith_congr f1 f2 kvs h]
termination_by structural v

theorem escapeAllListWith_congr (f1 f2 : Nat → Str) (xs : List Value) :
    (∀ s ∈ strsOfList xs, latexEscapeWith f1 s = latexEscapeWith f2 s) →
    escapeAllListWith f1 xs = escapeAllListWith f2 xs := by
  match xs with
  | [] => intro _; rfl
  | x :: xs =>
    intro h
    simp only [escapeAllListWith]
    rw [escapeAllWith_congr f1 f2 x (fun s hs => h s (List.mem_append_left _ hs)),
      escapeAllListWith_congr f1 f2 xs (fun s hs => h s (List.mem_append_right _ hs))]
termination_by structural xs

theorem escapeAllKVsWith_congr (f1 f2 : Nat → Str) (kvs : List (Str × Value)) :
    (∀ s ∈ strsOfKVs kvs, latexEscapeWith f1 s = latexEscapeWith f2 s) →
    escapeAllKVsWith f1 kvs = escapeAllKVsWith f2 kvs := by
  match kvs with
  | [] => intro _; rfl
  | (k, v) :: kvs =>
    intro h
    simp only [escapeAllKVsWith]
    rw [escapeAllWith_congr f1 f2 v (fun s hs => h s (List.mem_append_left _ hs)),
      escapeAllKVsWith_congr f1 f2 kvs (fun s hs => h s (List.mem_append_right _ hs))]
termination_by structural kvs

end

/-- C7: the data stage of `create_tex` is deterministic — two runs whose
escapers draw different (but fresh) placeholder tokens produce the same
escaped binding tree, for documents whose strings avoid the token marker
letter. -/
theorem c7_render_deterministic (parsed : Value) (target : Option Str)
    (f1 f2 : Nat → Str) (h1 : FreshTokens f1) (h2 : FreshTokens f2)
    (hU : ∀ s ∈ strsOfV parsed, 'U' ∉ s ∧ Char.ofNat 10 ∉ s) :
    createTexDataWith f1 parsed target = createTexDataWith f2 parsed target := by
  have hdata : ∀ s ∈ strsOfV (if pythonTruthy parsed then parsed else .map []),
      'U' ∉ s ∧ Char.ofNat 10 ∉ s := by
    split
    · exact hU
    · intro s hs
      cases hs
  have key : ∀ (E : Except Unit Value),
      (∀ dtr, E = .ok dtr → ∀ s ∈ strsOfV dtr, 'U' ∉ s ∧ Char.ofNat 10 ∉ s) →
      (match E with
        | Except.error e => Except.error e
        | Except.ok dtr =>
          Except.ok (escapeAllWith f1 (if pythonTruthy dtr then dtr else Value.map []))) =
      (match E with
        | Except.error e => Except.error e
        | Except.ok dtr =>
          Except.ok (escapeAllWith f2 (if pythonTruthy dtr then dtr else Value.map []))) := by
    intro E hEstr
    cases E with
    | error e => rfl
    | ok dtr =>
      have hstr := hEstr dtr rfl
      have hstr2 : ∀ s ∈ strsOfV (if pythonTruthy dtr then dtr else Value.map []),
          'U' ∉ s ∧ Char.ofNat 10 ∉ s := by
        split
        · exact hstr
        · intro s hs
          cases hs
      exact congrArg _ (escapeAllWith_congr f1 f2 _ (fun s hs =>
        latexEscapeWith_deterministic f1 f2 s h1 h2 (hstr2 s hs).1 (hstr2 s hs).2))
  refine key _ ?_
  intro dtr hE
  split at hE
  · split at hE
    · next t =>
      split at hE
      · cases hE
      · cases hE
        intro s hs
        cases hs
      · next v2 hfv =>
        cases hE
        intro s hs
        exact hdata s (filterV_strs _ _ _ hfv s hs)
    · cases hE
      exact hdata
  · cases hE
    exact hdata

theorem c7_render_deterministic_witness :
    createTexDataWith defaultFresh (.map [("k".data, .str "a≈b".data)]) (some "cv".data) =
      createTexDataWith (fun k => defaultFresh (k + 1))
        (.map [("k".data, .str "a≈b".data)]) (some "cv".data) :=
  c7_render_deterministic (.map [("k".data, .str "a≈b".data)]) (some "cv".data)
    defaultFresh (fun k => defaultFresh (k + 1)) (by decide) (by decide) (by decide)

/-- Net effect of the typography and reserved-character passes on one
character (the braces of the backslash substitution get re-escaped, which
is visible in `escChar` of the backslash). -/
def escChar (c : Char) : Str :=
  charReplaceFold latexSpecial (charReplaceFold typoSingles [c])

theorem charRep_singleton (c0 : Char) (r : Str) (c : Char) :
    charRep c0 r [c] = if c = c0 then r else [c] := by
  simp [charRep]

theorem charReplaceFold_singleton_not_mem :
    ∀ (L : List (Char × Str)) (c : Char), (∀ p ∈ L, p.1 ≠ c) →
      charReplaceFold L [c] = [c] := by
  intro L
  induction L with
  | nil => intro c _; rfl
  | cons p L ih =>
    intro c hL
    obtain ⟨c0, r⟩ := p
    show charReplaceFold L (pyReplace [c] [c0] r) = [c]
    rw [pyReplace_single, charRep_singleton,
      if_neg (fun he : c = c0 => hL (c0, r) (List.mem_cons_self _ _) he.symm)]
    exact ih c (fun q hq => hL q (List.mem_cons_of_mem _ hq))

theorem escChar_id (c : Char) (ht : c ∉ typoChars) (hr : c ∉ reservedChars) :
    escChar c = [c] := by
  unfold escChar
  rw [charReplaceFold_singleton_not_mem typoSingles c
    (fun p hp he => ht (he ▸ List.mem_map.mpr ⟨p, hp, rfl⟩)),
    charReplaceFold_singleton_not_mem latexSpecial c
    (fun p hp he => hr (he ▸ List.mem_map.mpr ⟨p, hp, rfl⟩))]

theorem flatMap_singleton_id {α : Type} : ∀ s : List α, s.flatMap (fun x => [x]) = s := by
  intro s
  induction s with
  | nil => rfl
  | cons x xs ih => simp [ih]

/-- A table of single-character replacements acts characterwise. -/
theorem charReplaceFold_flatMap_str :
    ∀ (L : List (Char × Str)) (s : Str),
      charReplaceFold L s = s.flatMap (fun c => charReplaceFold L [c]) := by
  intro L
  induction L with
  | nil =>
    intro s
    exact (flatMap_singleton_id s).symm
  | cons p L ih =>
    intro s
    obtain ⟨c0, r⟩ := p
    show charReplaceFold L (pyReplace s [c0] r) = _
    rw [pyReplace_single, ih]
    show (charRep c0 r s).flatMap _ = _
    unfold charRep
    rw [List.flatMap_assoc s _ _]
    refine congrArg _ (funext fun c => ?_)
    show ((if c = c0 then r else [c]).flatMap fun d => charReplaceFold L [d]) =
      charReplaceFold L (pyReplace [c] [c0] r)
    rw [pyReplace_single, charRep_singleton, ← ih]

/-- When no Unicode math symbol occurs, the placeholder loop does
nothing (for any token stream). -/
theorem step1Aux_no_uni (f : Nat → Str) :
    ∀ (entries : List (Char × Str)) (s : Str) (phs : List (Str × Str)) (k : Nat),
      (∀ p ∈ entries, p.1 ∉ s) → step1Aux f entries s phs k = (s, phs, k) := by
  intro entries
  induction entries with
  | nil => intro s phs k _; rfl
  | cons p rest ih =>
    intro s phs k h
    obtain ⟨c, code⟩ := p
    simp only [step1Aux]
    rw [if_neg (h (c, code) (List.mem_cons_self _ _))]
    exact ih s phs k (fun q hq => h q (List.mem_cons_of_mem _ hq))

/-- On strings without preserved Unicode math symbols the escaper is the
characterwise map `escChar`, independently of the token stream. -/
theorem latexEscapeWith_no_uni (f : Nat → Str) (s : Str)
    (hs : ∀ c ∈ s, c ∉ uniChars) (hj : Char.ofNat 10 ∉ s ∨ '#' ∉ s) :
    latexEscapeWith f s = s.flatMap escChar := by
  have h1 : step1Aux f unicodeMathReplacements s [] 0 = (s, [], 0) := by
    refine step1Aux_no_uni f _ s [] 0 (fun p hp hmem => ?_)
    exact hs p.1 hmem (List.mem_map.mpr ⟨p, hp, rfl⟩)
  show restoreFold (step1Aux f unicodeMathReplacements s [] 0).2.1
      (charReplaceFold latexSpecial (strReplaceFold typographyReplacements
        (step1Aux f unicodeMathReplacements s [] 0).1)) = _
  rw [h1]
  show charReplaceFold latexSpecial (strReplaceFold typographyReplacements s) = _
  rw [strReplaceFold_typography s hj]
  rw [charReplaceFold_flatMap_str latexSpecial (charReplaceFold typoSingles s),
    charReplaceFold_flatMap_str typoSingles s, List.flatMap_assoc s _ _]
  refine congrArg _ (funext fun c => ?_)
  rw [← charReplaceFold_flatMap_str latexSpecial]
  rfl

/-- C2 (amended): the escaper is idempotent exactly on inputs it need not
re-escape — strings free of the ten reserved characters and of the
preserved Unicode math symbols (typographic characters are allowed: their
ASCII replacements are stable). -/
theorem c2_escape_idempotent_on_plain (s : Str)
    (hs : ∀ c ∈ s, c ∉ uniChars ∧ c ∉ reservedChars) :
    latexEscape (latexEscape s) = latexEscape s := by
  have h1 : latexEscape s = s.flatMap escChar :=
    latexEscapeWith_no_uni defaultFresh s (fun c hc => (hs c hc).1)
      (Or.inr (fun hmem => (hs _ hmem).2 (by decide)))
  have hout : ∀ d ∈ s.flatMap escChar, d ∉ uniChars ∧ d ∉ reservedChars ∧ d ∉ typoChars := by
    intro d hd
    rcases List.mem_flatMap.mp hd with ⟨c, hc, hdc⟩
    by_cases ht : c ∈ typoChars
    · have hfact : ∀ c0 ∈ typoChars, ∀ d2 ∈ escChar c0,
          d2 ∉ uniChars ∧ d2 ∉ reservedChars ∧ d2 ∉ typoChars := by decide
      exact hfact c ht d hdc
    · rw [escChar_id c ht (hs c hc).2] at hdc
      rcases List.mem_singleton.mp hdc with h2
      subst h2
      exact ⟨(hs _ hc).1, (hs _ hc).2, ht⟩
  have h2 : latexEscape (s.flatMap escChar) = (s.flatMap escChar).flatMap escChar :=
    latexEscapeWith_no_uni defaultFresh _ (fun d hd => (hout d hd).1)
      (Or.inr (fun hmem => (hout _ hmem).2.1 (by decide)))
  rw [h1, h2]
  have h3 : ∀ d ∈ s.flatMap escChar, escChar d = [d] := fun d hd =>
    escChar_id d (hout d hd).2.2 (hout d hd).2.1
  calc (s.flatMap escChar).flatMap escChar
      = (s.flatMap escChar).map id := flatMap_eq_map_of_singleton _ _ _ (fun d hd => by
        rw [h3 d hd]; rfl)
    _ = s.flatMap escChar := List.map_id _

theorem c2_escape_idempotent_on_plain_witness :
    latexEscape (latexEscape "a-b c".data) = latexEscape "a-b c".data :=
  c2_escape_idempotent_on_plain "a-b c".data (by decide)

theorem chFold_nil_toks : ∀ L : List (Char × Str), chFold L [] = [] := by
  intro L
  induction L with
  | nil => rfl
  | cons p L ih => obtain ⟨c, r⟩ := p; exact ih

theorem chFold_append : ∀ (L : List (Char × Str)) (ts1 ts2 : List TokI),
    chFold L (ts1 ++ ts2) = chFold L ts1 ++ chFold L ts2 := by
  intro L
  induction L with
  | nil => intro ts1 ts2; rfl
  | cons p L ih =>
    intro ts1 ts2
    obtain ⟨c, r⟩ := p
    show chFold L ((ts1 ++ ts2).flatMap _) = _
    rw [List.flatMap_append, ih]
    rfl

theorem restoreFoldI_nil_toks : ∀ phsI : List (Nat × Str), restoreFoldI phsI [] = [] := by
  intro phsI
  induction phsI with
  | nil => rfl
  | cons p phsI ih => obtain ⟨k, c⟩ := p; exact ih

theorem restoreFoldI_append : ∀ (phsI : List (Nat × Str)) (ts1 ts2 : List TokI),
    restoreFoldI phsI (ts1 ++ ts2) = restoreFoldI phsI ts1 ++ restoreFoldI phsI ts2 := by
  intro phsI
  induction phsI with
  | nil => intro ts1 ts2; rfl
  | cons p phsI ih =>
    intro ts1 ts2
    obtain ⟨k, c⟩ := p
    show restoreFoldI phsI ((ts1 ++ ts2).flatMap _) = _
    rw [List.flatMap_append, ih]
    rfl

theorem chFold_flatMap {α : Type} (L : List (Char × Str)) (h : α → List TokI) :
    ∀ as : List α, chFold L (as.flatMap h) = as.flatMap (fun a => chFold L (h a)) := by
  intro as
  induction as with
  | nil => exact chFold_nil_toks L
  | cons a as ih => rw [List.flatMap_cons, List.flatMap_cons, chFold_append, ih]

theorem restoreFoldI_flatMap {α : Type} (phsI : List (Nat × Str)) (h : α → List TokI) :
    ∀ as : List α, restoreFoldI phsI (as.flatMap h) = as.flatMap (fun a => restoreFoldI phsI (h a)) := by
  intro as
  induction as with
  | nil => exact restoreFoldI_nil_toks phsI
  | cons a as ih => rw [List.flatMap_cons, List.flatMap_cons, restoreFoldI_append, ih]

theorem flattenI_flatMap {α : Type} (f : Nat → Str) (h : α → List TokI) :
    ∀ as : List α, flattenI f (as.flatMap h) = as.flatMap (fun a => flattenI f (h a)) := by
  intro as
  induction as with
  | nil => rfl
  | cons a as ih => rw [List.flatMap_cons, List.flatMap_cons, flattenI_append, ih]

theorem chFold_map_ch : ∀ (L : List (Char × Str)) (w : Str),
    chFold L (w.map TokI.ch) = (charReplaceFold L w).map TokI.ch := by
  intro L
  induction L with
  | nil => intro w; rfl
  | cons p L ih =>
    intro w
    obtain ⟨c, r⟩ := p
    show chFold L ((w.map TokI.ch).flatMap (chSub c (r.map .ch))) = _
    have hmid : (w.map TokI.ch).flatMap (chSub c (r.map .ch)) = (charRep c r w).map TokI.ch := by
      rw [flatMap_map_comp]
      unfold charRep
      rw [List.map_flatMap]
      refine congrArg _ (funext fun x => ?_)
      by_cases hx : x = c
      · simp [chSub, hx]
      · simp [chSub, hx]
    rw [hmid, ih]
    show _ = (charReplaceFold L (pyReplace w [c] r)).map TokI.ch
    rw [pyReplace_single]

theorem chFold_ph_singleton : ∀ (L : List (Char × Str)) (k : Nat) (code : Str),
    chFold L [TokI.ph k code] = [TokI.ph k code] := by
  intro L
  induction L with
  | nil => intro k code; rfl
  | cons p L ih =>
    intro k code
    obtain ⟨c, r⟩ := p
    show chFold L ([TokI.ph k code].flatMap (chSub c (r.map .ch))) = _
    rw [show ([TokI.ph k code].flatMap (chSub c (r.map .ch))) = [TokI.ph k code] by
      simp [chSub]]
    exact ih k code

theorem restoreFoldI_map_ch : ∀ (phsI : List (Nat × Str)) (w : Str),
    restoreFoldI phsI (w.map TokI.ch) = w.map TokI.ch := by
  intro phsI
  induction phsI with
  | nil => intro w; rfl
  | cons p phsI ih =>
    intro w
    obtain ⟨k, c⟩ := p
    show restoreFoldI phsI ((w.map TokI.ch).flatMap (phSub k c)) = _
    rw [flatMap_map_comp, flatMap_eq_map_of_singleton _ TokI.ch w (fun x _ => by simp [phSub])]
    exact ih w

theorem restoreFoldI_ph_lookup :
    ∀ (phsI : List (Nat × Str)) (k : Nat) (code : Str),
      (k, code) ∈ phsI → (phsI.map Prod.fst).Nodup →
      restoreFoldI phsI [TokI.ph k code] = code.map TokI.ch := by
  intro phsI
  induction phsI with
  | nil =>
    intro k code hm _
    exact absurd hm (List.not_mem_nil _)
  | cons p phsI ih =>
    intro k code hm hnd
    obtain ⟨k0, c0⟩ := p
    show restoreFoldI phsI ([TokI.ph k code].flatMap (phSub k0 c0)) = _
    by_cases hk : k = k0
    · subst hk
      have hc : code = c0 := by
        rcases List.mem_cons.mp hm with h | h
        · cases h; rfl
        · exfalso
          have : k ∈ phsI.map Prod.fst := List.mem_map.mpr ⟨(k, code), h, rfl⟩
          exact (List.nodup_cons.mp hnd).1 this
      subst hc
      rw [show ([TokI.ph k code].flatMap (phSub k code)) = code.map TokI.ch by simp [phSub]]
      exact restoreFoldI_map_ch phsI code
    · rw [show ([TokI.ph k code].flatMap (phSub k0 c0)) = [TokI.ph k code] by simp [phSub, hk]]
      refine ih k code ?_ (List.nodup_cons.mp hnd).2
      rcases List.mem_cons.mp hm with h | h
      · cases h; exact absurd rfl hk
      · exact h

theorem map_eq_flatMap_singleton {α β : Type} (g : α → β) :
    ∀ s : List α, s.map g = s.flatMap (fun x => [g x]) := by
  intro s
  induction s with
  | nil => rfl
  | cons x xs ih => simp [ih]

/-- Per-character decomposition of the escaper: on marker-free input with a
fresh token stream, the result is the concatenation, character by
character, of either the net reserved/typography substitution `escChar` or
(for a preserved Unicode math symbol) its recorded substitution text. -/
theorem latexEscapeWith_flatMap_form (f : Nat → Str) (s : Str)
    (hf : FreshTokens f) (hs : 'U' ∉ s) (hnl : Char.ofNat 10 ∉ s) :
    ∃ h : Char → Str, latexEscapeWith f s = s.flatMap h ∧
      ∀ c ∈ s, h c = escChar c ∨
        h c ∈ unicodeMathReplacements.map (fun p => p.2) := by
  obtain ⟨g', phsI', k', heq, hg', hrange', hcodes', hk'⟩ :=
    step1AuxI_spec unicodeMathReplacements s TokI.ch [] 0
      (fun c => Or.inl rfl) rfl (by simp) (fun q hq => hq)
  have hnd : (phsI'.map Prod.fst).Nodup := by
    rw [hrange']
    exact List.nodup_range k' 
  refine ⟨fun c => flattenI f (restoreFoldI phsI'
    (chFold latexSpecial (chFold typoSingles [g' c]))), ?_, ?_⟩
  · rw [latexEscapeWith_eq_pipelineI f s hf hs hnl]
    unfold pipelineI
    rw [heq]
    show flattenI f (restoreFoldI phsI'
      (chFold latexSpecial (chFold typoSingles (s.map g')))) = _
    rw [map_eq_flatMap_singleton g' s, chFold_flatMap, chFold_flatMap,
      restoreFoldI_flatMap, flattenI_flatMap]
  · intro c _
    rcases hg' c with h | ⟨k2, code, hph, hmem2, huni⟩
    · left
      show flattenI f (restoreFoldI phsI'
        (chFold latexSpecial (chFold typoSingles [g' c]))) = escChar c
      rw [h]
      rw [show ([TokI.ch c] : List TokI) = [c].map TokI.ch from rfl,
        chFold_map_ch, chFold_map_ch, restoreFoldI_map_ch, flattenI_map_ch]
      rfl
    · right
      show flattenI f (restoreFoldI phsI'
        (chFold latexSpecial (chFold typoSingles [g' c]))) ∈ _
      rw [hph, chFold_ph_singleton, chFold_ph_singleton,
        restoreFoldI_ph_lookup phsI' k2 code hmem2 hnd, flattenI_map_ch]
      exact List.mem_map.mpr ⟨(c, code), huni, rfl⟩

/-- The substitution atoms the escaper can emit: the Unicode math
substitutions, and the net substitution of every typographic and reserved
character. -/
def escAtoms : List Str :=
  unicodeMathReplacements.map (fun p => p.2) ++ (typoChars ++ reservedChars).map escChar

/-- Fuelled checker: a string is a concatenation of substitution atoms and
characters that are not typesetter-reserved. -/
def isEscapedAux : Nat → Str → Bool
  | 0, s => s.isEmpty
  | _ + 1, [] => true
  | n + 1, c :: cs =>
    (!(decide (c ∈ reservedChars)) && isEscapedAux n cs) ||
      escAtoms.any (fun a =>
        !a.isEmpty && a.isPrefixOf (c :: cs) && isEscapedAux n ((c :: cs).drop a.length))

/-- A string is free of unescaped reserved characters: it splits into
substitution atoms and non-reserved characters. -/
def isEscapedStr (s : Str) : Bool := isEscapedAux s.length s

theorem any_congr_mem {α : Type} (L : List α) (f g : α → Bool)
    (h : ∀ a ∈ L, f a = g a) : L.any f = L.any g := by
  induction L with
  | nil => rfl
  | cons a L ih =>
    simp only [List.any_cons, h a (List.mem_cons_self _ _),
      ih (fun b hb => h b (List.mem_cons_of_mem _ hb))]

theorem isEscapedAux_fuel :
    ∀ (n m : Nat) (s : Str), s.length ≤ n → s.length ≤ m →
      isEscapedAux n s = isEscapedAux m s := by
  intro n
  induction n with
  | zero =>
    intro m s hn _
    have hs : s = [] := List.eq_nil_of_length_eq_zero (Nat.le_zero.mp hn)
    subst hs
    cases m <;> rfl
  | succ n ih =>
    intro m s hn hm
    match m, s with
    | 0, s =>
      have hs : s = [] := List.eq_nil_of_length_eq_zero (Nat.le_zero.mp hm)
      subst hs; cases n <;> rfl
    | m + 1, [] => rfl
    | m + 1, c :: cs =>
      simp only [isEscapedAux]
      have hplain : isEscapedAux n cs = isEscapedAux m cs :=
        ih m cs (Nat.le_of_succ_le_succ hn) (Nat.le_of_succ_le_succ hm)
      rw [hplain]
      refine congrArg _ (any_congr_mem _ _ _ (fun a _ => ?_))
      cases hg : (!a.isEmpty && a.isPrefixOf (c :: cs)) with
      | false => rfl
      | true =>
        have hane : a ≠ [] := by
          intro he
          subst he
          simp at hg
        have hlen : ((c :: cs).drop a.length).length ≤ cs.length := by
          have : 1 ≤ a.length := List.length_pos.mpr hane
          simp only [List.length_drop, List.length_cons]
          omega
        rw [ih m _ (hlen.trans (Nat.le_of_succ_le_succ hn))
          (hlen.trans (Nat.le_of_succ_le_succ hm))]

theorem isEscaped_cons_plain (c : Char) (cs : Str) (hc : c ∉ reservedChars)
    (h : isEscapedStr cs = true) : isEscapedStr (c :: cs) = true := by
  show isEscapedAux (cs.length + 1) (c :: cs) = true
  simp only [isEscapedAux]
  refine Bool.or_eq_true_iff.mpr (Or.inl ?_)
  rw [decide_eq_false hc]
  exact h

theorem isEscaped_atom (a rest : Str) (ha : a ∈ escAtoms) (hne : a ≠ [])
    (h : isEscapedStr rest = true) : isEscapedStr (a ++ rest) = true := by
  match a, hne with
  | c :: a2, _ =>
    show isEscapedAux ((c :: a2 ++ rest).length) (c :: (a2 ++ rest)) = true
    simp only [List.length_cons, List.length_append, isEscapedAux]
    refine Bool.or_eq_true_iff.mpr (Or.inr ?_)
    refine List.any_eq_true.mpr ⟨c :: a2, ha, ?_⟩
    have hpre : (c :: a2).isPrefixOf (c :: (a2 ++ rest)) = true := by
      rw [show (c :: (a2 ++ rest)) = (c :: a2) ++ rest from rfl]
      exact List.isPrefixOf_iff_prefix.mpr (List.prefix_append _ _)
    have hdrop : (c :: (a2 ++ rest)).drop (c :: a2).length = rest := by
      rw [show (c :: (a2 ++ rest)) = (c :: a2) ++ rest from rfl]
      exact List.drop_left _ _
    rw [hpre, hdrop, isEscapedAux_fuel _ rest.length rest
      (by rw [List.append_eq, List.length_append]; omega) (Nat.le_refl _),
      show isEscapedAux rest.length rest = true from h]
    rfl

/-- Concatenating per-character substitutions that are atoms or plain
characters yields a string free of unescaped reserved characters. -/
theorem isEscaped_flatMap (s : Str) (h : Char → Str)
    (hh : ∀ c ∈ s, h c = escChar c ∨
      h c ∈ unicodeMathReplacements.map (fun p => p.2)) :
    isEscapedStr (s.flatMap h) = true := by
  have hATne : ∀ a ∈ escAtoms, a ≠ [] := by decide
  induction s with
  | nil => rfl
  | cons c cs ih =>
    rw [List.flatMap_cons]
    have htail : isEscapedStr (cs.flatMap h) = true :=
      ih (fun c2 hc2 => hh c2 (List.mem_cons_of_mem _ hc2))
    rcases hh c (List.mem_cons_self _ _) with hesc | huni
    · by_cases hres : c ∈ typoChars ∨ c ∈ reservedChars
      · have hmem : escChar c ∈ escAtoms := by
          refine List.mem_append_right _ (List.mem_map.mpr ⟨c, ?_, rfl⟩)
          rcases hres with h2 | h2
          · exact List.mem_append_left _ h2
          · exact List.mem_append_right _ h2
        rw [hesc]
        exact isEscaped_atom _ _ hmem (hATne _ hmem) htail
      · push_neg at hres
        rw [hesc, escChar_id c hres.1 hres.2]
        exact isEscaped_cons_plain c _ hres.2 htail
    · exact isEscaped_atom _ _ (List.mem_append_left _ huni) (hATne _ (List.mem_append_left _ huni)) htail

mutual

/-- String scalars of the escaped tree are the escapes of the original
string scalars (keys contribute nothing: they are not escaped). -/
theorem strsOf_escapeAllWith (f : Nat → Str) (v : Value) :
    strsOfV (escapeAllWith f v) = (strsOfV v).map (latexEscapeWith f) := by
  match v with
  | .null => rfl
  | .bool b => rfl
  | .int n => rfl
  | .str s0 => rfl
  | .list xs =>
    show strsOfList (escapeAllListWith f xs) = _
    exact strsOf_escapeAllListWith f xs
  | .map kvs =>
    show strsOfKVs (escapeAllKVsWith f kvs) = _
    exact strsOf_escapeAllKVsWith f kvs
termination_by structural v

theorem strsOf_escapeAllListWith (f : Nat → Str) (xs : List Value) :
    strsOfList (escapeAllListWith f xs) = (strsOfList xs).map (latexEscapeWith f) := by
  match xs with
  | [] => rfl
  | x :: xs =>
    show strsOfV (escapeAllWith f x) ++ strsOfList (escapeAllListWith f xs) = _
    rw [strsOf_escapeAllWith f x, strsOf_escapeAllListWith f xs]
    exact (List.map_append _ _ _).symm
termination_by structural xs

theorem strsOf_escapeAllKVsWith (f : Nat → Str) (kvs : List (Str × Value)) :
    strsOfKVs (escapeAllKVsWith f kvs) = (strsOfKVs kvs).map (latexEscapeWith f) := by
  match kvs with
  | [] => rfl
  | (k, v) :: kvs =>
    show strsOfV (escapeAllWith f v) ++ strsOfKVs (escapeAllKVsWith f kvs) = _
    rw [strsOf_escapeAllWith f v, strsOf_escapeAllKVsWith f kvs]
    exact (List.map_append _ _ _).symm
termination_by structural kvs

end

/-- C8 (counterexample): `escape_all` leaves dict keys untouched, so a map
key containing a reserved character survives filtering and escaping
verbatim — the output contains the string `a&b`, which is not free of
unescaped reserved characters. -/
theorem c8_keys_not_escaped_cex :
    filterV "cv".data (.map [("a&b".data, .str "x".data)]) =
      .ok (some (.map [("a&b".data, .str "x".data)])) ∧
    escapeAll (.map [("a&b".data, .str "x".data)]) =
      .map [("a&b".data, .str (latexEscape "x".data))] ∧
    isEscapedStr "a&b".data = false := by
  refine ⟨rfl, rfl, by decide⟩

/-- C8 (amended): every string scalar of the filtered-then-escaped tree is
free of unescaped reserved characters (a concatenation of substitution
atoms and non-reserved characters); map keys, by contrast, pass through
unescaped. -/
theorem c8_escaped_strings_safe (d : Value) (t : Str) (w : Value) (f : Nat → Str)
    (hf : FreshTokens f) (hflt : filterV t d = .ok (some w))
    (hU : ∀ s ∈ strsOfV d, 'U' ∉ s ∧ Char.ofNat 10 ∉ s) :
    ∀ s2 ∈ strsOfV (escapeAllWith f w), isEscapedStr s2 = true := by
  intro s2 hs2
  rw [strsOf_escapeAllWith] at hs2
  rcases List.mem_map.mp hs2 with ⟨s, hsw, rfl⟩
  have hU2 := hU s (filterV_strs t d w hflt s hsw)
  obtain ⟨h, heq, hcases⟩ := latexEscapeWith_flatMap_form f s hf hU2.1 hU2.2
  rw [heq]
  exact isEscaped_flatMap s h hcases

theorem c8_escaped_strings_safe_witness :
    isEscapedStr (latexEscape "p≈q_r".data) = true := by
  have hm : latexEscapeWith defaultFresh "p≈q_r".data ∈
      strsOfV (escapeAllWith defaultFresh (.map [("k".data, .str "p≈q_r".data)])) :=
    List.mem_singleton.mpr rfl
  exact c8_escaped_strings_safe (.map [("k".data, .str "p≈q_r".data)]) "cv".data
    (.map [("k".data, .str "p≈q_r".data)]) defaultFresh (by decide) rfl (by decide)
    (latexEscapeWith defaultFresh "p≈q_r".data) hm
